import Mathlib

/-!
Verification of the KiCad S-expression parser and net-connectivity resolver
(`backend/kicad_parser.py`).

The Python source is shallowly embedded:
* Python floats are modelled as exact rationals (`ℚ`); the claims verified here
  do not depend on binary floating-point rounding.  The real-valued geometry
  (`math.cos`/`math.sin`) is modelled twice: an ideal model over `ℝ` with
  `Real.cos`/`Real.sin` for the geometry claims, and a computable stand-in over
  `ℚ` for the executable parsing pipeline (see `qcosDeg`); every executable
  scenario verified below only exercises the `angle = 0` short-circuit of
  `_rotate_point`, where both models agree with the source exactly.
* Code that can raise (`float(...)`, `int(...)`, unhashable dictionary keys)
  is modelled in the `Option` monad: `none` models a raised exception.
* Python dictionaries are modelled as insertion-ordered association lists,
  matching the iteration order the source relies on.
-/

namespace KicadParser

/-! ## S-expression token trees

`tokenize_sexpr` produces nested Python lists whose leaves are strings.  A
value of that shape is either a string or a list of such values: -/

inductive Tok where
  | atom : String → Tok
  | list : List Tok → Tok

mutual

/-- Boolean equality on token trees (for decidability of concrete goals). -/
def Tok.beq : Tok → Tok → Bool
  | .atom a, .atom b => a == b
  | .list as, .list bs => Tok.beqList as bs
  | _, _ => false

/-- Boolean equality on lists of token trees. -/
def Tok.beqList : List Tok → List Tok → Bool
  | [], [] => true
  | a :: as, b :: bs => Tok.beq a b && Tok.beqList as bs
  | _, _ => false

end

mutual

theorem Tok.beq_iff : (a b : Tok) → (Tok.beq a b = true ↔ a = b)
  | .atom x, .atom y => by simp [Tok.beq]
  | .atom _, .list _ => by simp [Tok.beq]
  | .list _, .atom _ => by simp [Tok.beq]
  | .list xs, .list ys => by
      simpa [Tok.beq] using Tok.beqList_iff xs ys

theorem Tok.beqList_iff : (as bs : List Tok) → (Tok.beqList as bs = true ↔ as = bs)
  | [], [] => by simp [Tok.beqList]
  | [], _ :: _ => by simp [Tok.beqList]
  | _ :: _, [] => by simp [Tok.beqList]
  | a :: as, b :: bs => by
      simp [Tok.beqList, Bool.and_eq_true, Tok.beq_iff a b, Tok.beqList_iff as bs]

end

instance : DecidableEq Tok := fun a b =>
  decidable_of_iff (Tok.beq a b = true) (Tok.beq_iff a b)

/-- Whitespace characters treated as separators by `tokenize_sexpr`
(the Python source checks membership in the string literal containing
space, tab, newline and carriage return). -/
def isSpaceChar (c : Char) : Bool :=
  c = ' ' || c = '\t' || c = '\n' || c = '\r'

/-- Characters that terminate a bare atom in `tokenize_sexpr`
(the Python source scans while the character is not in the literal
containing the parentheses, whitespace and the double quote). -/
def isAtomStop (c : Char) : Bool :=
  c = '(' || c = ')' || c = '"' || isSpaceChar c

/-- The quoted-atom scanner of `tokenize_sexpr` (lines 42-49 of the source):
starting just after an opening `"`, it advances until the next unescaped `"`
(a `\` skips the following character, which stays part of the atom verbatim;
no escape decoding is performed), returning the atom's characters and the
remaining input after the closing quote.  At end of input the remainder of
the text becomes the atom (the Python slice `text[i+1:j]` with `j = n`). -/
def scanQuoted : List Char → List Char × List Char
  | [] => ([], [])
  | '"' :: rest => ([], rest)
  | '\\' :: c :: rest =>
      let r := scanQuoted rest
      ('\\' :: c :: r.1, r.2)
  | ['\\'] => (['\\'], [])
  | c :: rest =>
      let r := scanQuoted rest
      (c :: r.1, r.2)

/-- The bare-atom scanner of `tokenize_sexpr` (lines 52-57 of the source):
takes the maximal run of non-stop characters. -/
def scanAtom : List Char → List Char × List Char
  | [] => ([], [])
  | c :: rest =>
      if isAtomStop c then ([], c :: rest)
      else
        let r := scanAtom rest
        (c :: r.1, r.2)

theorem scanQuoted_rest_length (l : List Char) :
    (scanQuoted l).2.length ≤ l.length := by
  induction l using scanQuoted.induct <;> simp [scanQuoted, *] <;> omega

theorem scanAtom_rest_length (l : List Char) :
    (scanAtom l).2.length ≤ l.length := by
  induction l using scanAtom.induct <;> simp_all [scanAtom] <;> omega

/-- Append a token to the innermost open list (the Python
`stack[-1].append(...)`; the stack is never empty since the root list is
always present, so the `[]` case is unreachable). -/
def pushTop (stack : List (List Tok)) (t : Tok) : List (List Tok) :=
  match stack with
  | [] => [[t]]
  | top :: s => (top ++ [t]) :: s

/-- The scanning loop of `tokenize_sexpr` (lines 31-57 of the source).  The
stack of open lists is kept innermost-first; the Python code appends a freshly
opened list to its parent at `(`-time and mutates it in place, which is
equivalent to attaching it to the parent at `)`-time (or at end of input for
unclosed lists, see `closeAll`).  A `)` with only the root open is a no-op. -/
def tokenizeAux : List Char → List (List Tok) → List (List Tok)
  | [], stack => stack
  | '(' :: rest, stack => tokenizeAux rest ([] :: stack)
  | ')' :: rest, stack =>
      match stack with
      | top :: parent :: s => tokenizeAux rest ((parent ++ [Tok.list top]) :: s)
      | _ => tokenizeAux rest stack
  | '"' :: rest, stack =>
      let r := scanQuoted rest
      tokenizeAux r.2 (pushTop stack (Tok.atom (String.mk r.1)))
  | c :: rest, stack =>
      if isSpaceChar c then tokenizeAux rest stack
      else
        -- A bare atom starts here: `c` is not `(`, `)`, `"` (those were
        -- matched above) and not whitespace, so it is never a stop
        -- character; the source's maximal-run scan from `c` is `c` followed
        -- by the maximal run taken from `rest`.
        let r := scanAtom rest
        tokenizeAux r.2 (pushTop stack (Tok.atom (String.mk (c :: r.1))))
termination_by l _ => l.length
decreasing_by
  · simp
  · simp
  · simp
  · have := scanQuoted_rest_length rest
    simp; omega
  · simp
  · have := scanAtom_rest_length rest
    simp; omega

/-- The scanning loop again, with an explicit step budget so that concrete
inputs evaluate by plain kernel reduction (the well-founded recursion of
`tokenizeAux` does not).  `tokenizeAuxF_eq_tokenizeAux` shows the budget is
irrelevant once it exceeds the input length: every step consumes at least
one character. -/
def tokenizeAuxF : ℕ → List Char → List (List Tok) → List (List Tok)
  | _, [], stack => stack
  | 0, _ :: _, stack => stack
  | fuel + 1, '(' :: rest, stack => tokenizeAuxF fuel rest ([] :: stack)
  | fuel + 1, ')' :: rest, stack =>
      match stack with
      | top :: parent :: s =>
          tokenizeAuxF fuel rest ((parent ++ [Tok.list top]) :: s)
      | _ => tokenizeAuxF fuel rest stack
  | fuel + 1, '"' :: rest, stack =>
      let r := scanQuoted rest
      tokenizeAuxF fuel r.2 (pushTop stack (Tok.atom (String.mk r.1)))
  | fuel + 1, c :: rest, stack =>
      if isSpaceChar c then tokenizeAuxF fuel rest stack
      else
        let r := scanAtom rest
        tokenizeAuxF fuel r.2 (pushTop stack (Tok.atom (String.mk (c :: r.1))))

theorem tokenizeAuxF_eq_tokenizeAux (cs : List Char) (stack : List (List Tok)) :
    ∀ fuel, cs.length < fuel → tokenizeAuxF fuel cs stack = tokenizeAux cs stack := by
  induction cs, stack using tokenizeAux.induct with
  | case1 stack =>
      intro fuel _
      cases fuel <;> simp [tokenizeAuxF, tokenizeAux]
  | case2 rest stack ih =>
      intro fuel h
      cases fuel with
      | zero => simp at h
      | succ f =>
          simp at h
          simp [tokenizeAuxF, tokenizeAux, ih f (by omega)]
  | case3 rest top parent s ih =>
      intro fuel h
      cases fuel with
      | zero => simp at h
      | succ f =>
          simp at h
          simp [tokenizeAuxF, tokenizeAux, ih f (by omega)]
  | case4 rest stack hne ih =>
      intro fuel h
      cases fuel with
      | zero => simp at h
      | succ f =>
          simp at h
          simp only [tokenizeAuxF, tokenizeAux]
          cases stack with
          | nil => exact ih f (by omega)
          | cons a t =>
              cases t with
              | nil => exact ih f (by omega)
              | cons b u => exact absurd rfl (hne a b u)
  | case5 rest stack r ih =>
      intro fuel h
      cases fuel with
      | zero => simp at h
      | succ f =>
          simp at h
          have hr : r = scanQuoted rest := rfl
          have hq := scanQuoted_rest_length rest
          rw [hr] at ih
          simp only [tokenizeAuxF, tokenizeAux]
          exact ih f (by omega)
  | case6 c rest stack h1 h2 h3 hsp ih =>
      intro fuel h
      cases fuel with
      | zero => simp at h
      | succ f =>
          simp at h
          simp [tokenizeAuxF, tokenizeAux, h1, h2, h3, hsp, ih f (by omega)]
  | case7 c rest stack h1 h2 h3 hnsp r ih =>
      intro fuel h
      cases fuel with
      | zero => simp at h
      | succ f =>
          simp at h
          have hr : r = scanAtom rest := rfl
          have ha := scanAtom_rest_length rest
          rw [hr] at ih
          simp [tokenizeAuxF, tokenizeAux, h1, h2, h3, hnsp, ih f (by omega)]

/-- Attach the still-open lists to their parents at end of input (in the
Python source unclosed lists are already linked into their parents, so the
root holds the whole partial tree; here we attach them now). -/
def closeAllAux : List Tok → List (List Tok) → List Tok
  | cur, [] => cur
  | cur, parent :: s => closeAllAux (parent ++ [Tok.list cur]) s

/-- Collapse the final stack to the root list. -/
def closeAll : List (List Tok) → List Tok
  | [] => []
  | top :: rest => closeAllAux top rest

/-- `tokenize_sexpr` (lines 19-59 of the source): returns the single
top-level token when there is exactly one (which may be an atom), else the
flat list of top-level tokens.  The step budget `length + 1` always
suffices (`tokenizeAuxF_eq_tokenizeAux`). -/
def tokenizeSexpr (text : String) : Tok :=
  match closeAll (tokenizeAuxF (text.data.length + 1) text.data [[]]) with
  | [t] => t
  | ts => Tok.list ts

/-- `tokenizeSexpr` in terms of the budget-free scanning loop. -/
theorem tokenizeSexpr_eq (text : String) :
    tokenizeSexpr text =
      match closeAll (tokenizeAux text.data [[]]) with
      | [t] => t
      | ts => Tok.list ts := by
  rw [tokenizeSexpr, tokenizeAuxF_eq_tokenizeAux text.data [[]] _ (by omega)]

/-! ## Geometry, ideal model over `ℝ`

`_rotate_point`, `_compute_pin_endpoint` and `_compute_absolute_pin_position`
(lines 114-195 of the source) use `math.cos`/`math.sin`; the ideal
mathematical meaning of that code is over the reals. -/

/-- `_rotate_point` (lines 114-121): rotate about the origin by
`angle_deg` degrees, with the source's identity short-circuit at angle 0. -/
noncomputable def rotatePointR (x y angleDeg : ℝ) : ℝ × ℝ :=
  if angleDeg = 0 then (x, y)
  else
    let rad := angleDeg * (Real.pi / 180)
    (x * Real.cos rad - y * Real.sin rad, x * Real.sin rad + y * Real.cos rad)

/-- `_compute_pin_endpoint` (lines 175-180): the pin tip is the local anchor
plus `(length, 0)` rotated by minus the pin's own rotation. -/
noncomputable def computePinEndpointR (x y length rotation : ℝ) : ℝ × ℝ :=
  let d := rotatePointR length 0 (-rotation)
  (x + d.1, y + d.2)

/-- `_compute_absolute_pin_position` (lines 183-195): negate x/y per the
mirror flags, rotate by minus the instance rotation, translate by the
instance position — in that order. -/
noncomputable def computeAbsolutePinPositionR (symbolX symbolY symbolRot : ℝ)
    (mirrorX mirrorY : Bool) (pinEndpointX pinEndpointY : ℝ) : ℝ × ℝ :=
  let px := if mirrorX then -pinEndpointX else pinEndpointX
  let py := if mirrorY then -pinEndpointY else pinEndpointY
  let r := rotatePointR px py (-symbolRot)
  (symbolX + r.1, symbolY + r.2)

/-- Plain rotation formula with no angle-0 short-circuit (the general branch
of `_rotate_point`), used to state the geometry claim. -/
noncomputable def rotateFormula (x y angleDeg : ℝ) : ℝ × ℝ :=
  let rad := angleDeg * (Real.pi / 180)
  (x * Real.cos rad - y * Real.sin rad, x * Real.sin rad + y * Real.cos rad)

/-- Modelled from the spec: the absolute pin position as the spec describes
it — endpoint = local anchor plus `(length, 0)` rotated by minus the pin
rotation; then mirror (negate x and/or y), then rotate by minus the instance
rotation, then translate by the instance position. -/
noncomputable def specAbsolutePinPosition (pinX pinY length rotation : ℝ)
    (symbolX symbolY symbolRot : ℝ) (mirrorX mirrorY : Bool) : ℝ × ℝ :=
  let e := rotateFormula length 0 (-rotation)
  let endpoint := (pinX + e.1, pinY + e.2)
  let mirrored := ((if mirrorX then -endpoint.1 else endpoint.1),
                   (if mirrorY then -endpoint.2 else endpoint.2))
  let rotated := rotateFormula mirrored.1 mirrored.2 (-symbolRot)
  (symbolX + rotated.1, symbolY + rotated.2)

/-- The angle-0 short-circuit of `_rotate_point` agrees with the general
rotation formula (over `ℝ`, `cos 0 = 1` and `sin 0 = 0` exactly). -/
theorem rotatePointR_eq_formula (x y angleDeg : ℝ) :
    rotatePointR x y angleDeg = rotateFormula x y angleDeg := by
  unfold rotatePointR rotateFormula
  split
  · rename_i h
    simp [h]
  · rfl

/-! ## Geometry, executable model over `ℚ`

The executable parsing pipeline needs computable coordinates.  Python floats
are modelled as exact rationals.  `math.cos`/`math.sin` are themselves
approximations of the real functions; they are modelled here by a fixed
computable rational approximation (truncated Taylor series at a rational
approximation of π/180).  No theorem below depends on the values of
`qcosDeg`/`qsinDeg` away from angle 0: every concrete scenario uses
rotation 0, where `_rotate_point` short-circuits before any trigonometry. -/

/-- Rational stand-in for `math.radians`. -/
def qradians (a : ℚ) : ℚ := a * (314159265358979323 / 18000000000000000000)

/-- Rational stand-in for `math.cos` on degrees (truncated Taylor series). -/
def qcosDeg (a : ℚ) : ℚ :=
  let r := qradians a
  1 - r ^ 2 / 2 + r ^ 4 / 24 - r ^ 6 / 720

/-- Rational stand-in for `math.sin` on degrees (truncated Taylor series). -/
def qsinDeg (a : ℚ) : ℚ :=
  let r := qradians a
  r - r ^ 3 / 6 + r ^ 5 / 120

/-- `_rotate_point` over `ℚ` (the angle-0 short-circuit is exact and is the
only branch exercised by the verified concrete scenarios). -/
def rotatePointQ (x y angleDeg : ℚ) : ℚ × ℚ :=
  if angleDeg = 0 then (x, y)
  else (x * qcosDeg angleDeg - y * qsinDeg angleDeg,
        x * qsinDeg angleDeg + y * qcosDeg angleDeg)

/-! ## Node-tag lookup helpers (lines 62-99 of the source) -/

/-- One step of `_find_nodes`' filter: an item matches a tag when it is a
list whose first element equals the tag string (a list head never equals a
string in Python, so only atom heads can match). -/
def nodeTag (tag : String) : Tok → Option (List Tok)
  | .list (Tok.atom h :: rest) =>
      if h = tag then some (Tok.atom h :: rest) else none
  | _ => none

/-- `_find_nodes` (lines 62-68). -/
def findNodes (sexpr : List Tok) (tag : String) : List (List Tok) :=
  sexpr.filterMap (nodeTag tag)

/-- `_find_node` (lines 71-76): first matching child. -/
def findNode (sexpr : List Tok) (tag : String) : Option (List Tok) :=
  (findNodes sexpr tag).head?

/-- `_get_value` (lines 79-84): the first value after a tag, a default when
the tag is missing or bears no value. -/
def getValueTok (sexpr : List Tok) (tag : String) (dflt : Tok) : Tok :=
  match findNode sexpr tag with
  | some n => (n.get? 1).getD dflt
  | none => dflt

/-! ## Python value conversions

`float(...)` and `int(...)` raise `ValueError` on non-numeric text; raising
is modelled as `none`.  The models cover Python's decimal-literal repertoire
(optional surrounding whitespace, sign, integer/fraction digits, exponent);
exotic accepted forms (`inf`, `nan`, underscore digit separators) are not
modelled — no claim exercises them. -/

/-- Digit run to a natural number. -/
def digitsToNat (ds : List Char) : ℕ :=
  ds.foldl (fun a c => a * 10 + (c.toNat - 48)) 0

/-- Strip the surrounding whitespace Python's conversions accept. -/
def pyStrip (cs : List Char) : List Char :=
  ((cs.dropWhile isSpaceChar).reverse.dropWhile isSpaceChar).reverse

/-- Model of Python `float(s)` on decimal literals. -/
def parseFloat (s : String) : Option ℚ :=
  let cs := pyStrip s.data
  let sc : ℚ × List Char :=
    match cs with
    | '+' :: r => (1, r)
    | '-' :: r => (-1, r)
    | r => (1, r)
  let ip := sc.2.span Char.isDigit
  let fp : List Char × List Char :=
    match ip.2 with
    | '.' :: r => r.span Char.isDigit
    | r => ([], r)
  if ip.1 = [] ∧ fp.1 = [] then none
  else
    let mant : ℚ := (digitsToNat ip.1 : ℚ) + (digitsToNat fp.1 : ℚ) / 10 ^ fp.1.length
    match fp.2 with
    | [] => some (sc.1 * mant)
    | e :: r =>
        if e = 'e' ∨ e = 'E' then
          let esc : ℤ × List Char :=
            match r with
            | '+' :: r2 => (1, r2)
            | '-' :: r2 => (-1, r2)
            | r2 => (1, r2)
          let ed := esc.2.span Char.isDigit
          if ed.1 = [] ∨ ed.2 ≠ [] then none
          else some (sc.1 * mant * (10 : ℚ) ^ (esc.1 * digitsToNat ed.1))
        else none

/-- Model of Python `int(s)` on decimal literals. -/
def parseInt (s : String) : Option ℤ :=
  let cs := pyStrip s.data
  let sc : ℤ × List Char :=
    match cs with
    | '+' :: r => (1, r)
    | '-' :: r => (-1, r)
    | r => (1, r)
  let ds := sc.2.span Char.isDigit
  if ds.1 = [] ∨ ds.2 ≠ [] then none
  else some (sc.1 * digitsToNat ds.1)

/-- Extract the string of an atom.  Where the source reads a token into a
string position, a nested list either raises at once (`float`/`int`,
unhashable dictionary keys) or produces a value outside every claim's
scope; both are modelled as `none` (see the module comment). -/
def atomOfTok : Tok → Option String
  | .atom s => some s
  | .list _ => none

/-- Python `float(token)`: `TypeError` on a list, `ValueError` on
non-numeric text. -/
def floatOfTok (t : Tok) : Option ℚ :=
  (atomOfTok t).bind parseFloat

/-- `_get_xy` (lines 87-91). -/
def getXY (node : List Tok) : Option (ℚ × ℚ) :=
  match node with
  | _ :: a :: b :: _ => do
      let x ← floatOfTok a
      let y ← floatOfTok b
      pure (x, y)
  | _ => pure (0, 0)

/-- `_get_xyz` (lines 94-99). -/
def getXYZ (node : List Tok) : Option (ℚ × ℚ × ℚ) := do
  let x ← match node.get? 1 with
    | some t => floatOfTok t
    | none => pure 0
  let y ← match node.get? 2 with
    | some t => floatOfTok t
    | none => pure 0
  let r ← match node.get? 3 with
    | some t => floatOfTok t
    | none => pure 0
  pure (x, y, r)

/-! ## Schematic data model (the dictionaries built by `parse_kicad_sch`) -/

/-- A pin definition inside a library symbol (`_parse_lib_symbol_pins`). -/
structure LibPin where
  electricalType : String
  shape : String
  unit : ℤ
  x : ℚ
  y : ℚ
  rotation : ℚ
  length : ℚ
  name : String
  number : String
deriving DecidableEq

/-- A `lib_symbols` table entry (lines 237-241). -/
structure LibSymbol where
  libId : String
  pins : List LibPin
  isPower : Bool
deriving DecidableEq

/-- An entry of a symbol instance's `pins` list (lines 296-301). -/
structure PinInst where
  name : String
  number : String
  electricalType : String
  position : ℚ × ℚ
deriving DecidableEq

/-- A placed symbol instance (lines 303-316).  `placement` is the source's
`at` triple (`at` and `end` are Lean keywords, hence the renamed fields
here and in `Wire`). -/
structure SymbolInst where
  libId : String
  reference : String
  value : String
  footprint : String
  unit : ℤ
  uuid : String
  placement : ℚ × ℚ × ℚ
  mirrorX : Bool
  mirrorY : Bool
  properties : List (String × String)
  pins : List PinInst
  isPower : Bool
deriving DecidableEq

/-- A wire segment (lines 330-333); `stop` is the source's `end`. -/
structure Wire where
  start : ℚ × ℚ
  stop : ℚ × ℚ
deriving DecidableEq

/-- A label (lines 341-345). -/
structure SchLabel where
  name : String
  type : String
  position : ℚ × ℚ
deriving DecidableEq

/-- The dictionary returned by `parse_kicad_sch` (lines 216-226). -/
structure Schematic where
  version : Tok
  symbols : List SymbolInst
  wires : List Wire
  labels : List SchLabel
  junctions : List (ℚ × ℚ)
  noConnects : List (ℚ × ℚ)
  powerSymbols : List SymbolInst
  libSymbols : List (String × LibSymbol)
  nets : List (String × List String)
deriving DecidableEq

/-! ## Library-symbol pin extraction (lines 128-172) -/

/-- The sub-unit number encoded in a sub-symbol name: Python
`name.rsplit("_", 2)` yields at least three parts exactly when the name has
at least two underscores, and `parts[-2]` is the segment between the last
two; `int(...)` failure falls back to 0 (lines 163-170). -/
def subUnitOfName (s : String) : ℤ :=
  let r := s.data.reverse
  let p1 := r.span (· ≠ '_')
  match p1.2 with
  | '_' :: r2 =>
      let p2 := r2.span (· ≠ '_')
      match p2.2 with
      | '_' :: _ => (parseInt (String.mk p2.1.reverse)).getD 0
      | _ => 0
  | _ => 0

/-- Parse one `pin` node (lines 139-159). -/
def parsePinNode (item : List Tok) (unit : ℤ) : Option LibPin := do
  let et ← match item.get? 1 with
    | some t => atomOfTok t
    | none => pure "passive"
  let shape ← match item.get? 2 with
    | some t => atomOfTok t
    | none => pure ""
  let xyz ← match findNode item "at" with
    | some atNode => getXYZ atNode
    | none => pure (0, 0, 0)
  let length ← match findNode item "length" with
    | some ln =>
        match ln.get? 1 with
        | some t => floatOfTok t
        | none => pure (254 / 100 : ℚ)
    | none => pure (254 / 100 : ℚ)
  let name ← match findNode item "name" with
    | some n =>
        match n.get? 1 with
        | some t => atomOfTok t
        | none => pure ""
    | none => pure ""
  let number ← match findNode item "number" with
    | some n =>
        match n.get? 1 with
        | some t => atomOfTok t
        | none => pure ""
    | none => pure ""
  pure { electricalType := et, shape := shape, unit := unit,
         x := xyz.1, y := xyz.2.1, rotation := xyz.2.2,
         length := length, name := name, number := number }

mutual

/-- The contribution of a single item of a symbol definition (the loop body
of `_parse_lib_symbol_pins`, lines 136-171): a `pin` node yields one pin, a
nested `symbol` node recurses with the unit parsed from its name suffix,
anything else contributes nothing. -/
def pinItemsOf : Tok → ℤ → Option (List LibPin)
  | Tok.list (Tok.atom "pin" :: pinRest), unit =>
      (parsePinNode (Tok.atom "pin" :: pinRest) unit).map (fun p => [p])
  | Tok.list (Tok.atom "symbol" :: symRest), _ => do
      let subName ← match symRest.head? with
        | some t => atomOfTok t
        | none => pure ""
      pinsOfItems (Tok.atom "symbol" :: symRest) (subUnitOfName subName)
  | _, _ => some []

/-- `_parse_lib_symbol_pins` (lines 128-172): walk the definition's items in
order, splicing each item's pins in place. -/
def pinsOfItems : List Tok → ℤ → Option (List LibPin)
  | [], _ => some []
  | item :: rest, unit => do
      let a ← pinItemsOf item unit
      let b ← pinsOfItems rest unit
      pure (a ++ b)

end

/-- `_parse_lib_symbol_pins` under its source name. -/
def parseLibSymbolPins (items : List Tok) (unit : ℤ) : Option (List LibPin) :=
  pinsOfItems items unit

/-! ## Net connectivity (`_build_net_connectivity`, lines 365-491)

Python dictionaries are modelled as insertion-ordered association lists:
`setAssoc` is `d[k] = v`, `extendAssoc` is the source's
"create empty list if absent, then extend" idiom, `lookupAssoc` is `d.get`.
Iteration over the association list matches Python's dict iteration order. -/

/-- Dictionary assignment `d[k] = v` (updates in place, appends new keys). -/
def setAssoc {α β : Type} [DecidableEq α] : List (α × β) → α → β → List (α × β)
  | [], k, v => [(k, v)]
  | (k', v') :: t, k, v =>
      if k' = k then (k, v) :: t else (k', v') :: setAssoc t k v

/-- Append values to the list stored under a key, creating the entry at the
end when the key is absent. -/
def extendAssoc {α β : Type} [DecidableEq α] :
    List (α × List β) → α → List β → List (α × List β)
  | [], k, its => [(k, its)]
  | (k', v) :: t, k, its =>
      if k' = k then (k', v ++ its) :: t else (k', v) :: extendAssoc t k its

/-- Dictionary lookup `d.get(k)`. -/
def lookupAssoc {α β : Type} [DecidableEq α] : List (α × β) → α → Option β
  | [], _ => none
  | (k, v) :: t, a => if k = a then some v else lookupAssoc t a

/-- Python `round` on floats: round half to even. -/
def pyRound (q : ℚ) : ℤ :=
  let f := ⌊q⌋
  let frac := q - f
  if frac < 1 / 2 then f
  else if 1 / 2 < frac then f + 1
  else if Even f then f else f + 1

/-- Rounded-coordinate grouping keys (integer hundredths). -/
abbrev Key := ℤ × ℤ

/-- `_round_coord` (lines 376-378). -/
def roundCoord (pos : ℚ × ℚ) : Key :=
  (pyRound (pos.1 * 100), pyRound (pos.2 * 100))

/-- An entry of `point_items`: the source stores small dicts whose `type`
tag routes all later reads; only the fields read downstream are kept
(`net_name` for labels/power points, the reference/name/number fields for
pins; wire and junction entries carry data that is never read again). -/
inductive NItem where
  | wirePoint
  | pinItem (reference pinName pinNumber electricalType libId : String)
  | powerItem (netName reference : String)
  | labelItem (netName labelType : String)
  | junctionItem
deriving DecidableEq

/-- `_add_point` (lines 380-384). -/
def addPoint (pi : List (Key × List NItem)) (pos : ℚ × ℚ) (it : NItem) :
    List (Key × List NItem) :=
  extendAssoc pi (roundCoord pos) [it]

/-- The `point_items` map after all insertions (lines 386-422), in source
order: wire endpoints, symbol pins, power-symbol pins, labels, junctions. -/
def pointItems (s : Schematic) : List (Key × List NItem) :=
  let pi : List (Key × List NItem) := []
  let pi := s.wires.foldl
    (fun pi w => addPoint (addPoint pi w.start .wirePoint) w.stop .wirePoint) pi
  let pi := s.symbols.foldl
    (fun pi sym => sym.pins.foldl
      (fun pi p => addPoint pi p.position
        (.pinItem sym.reference p.name p.number p.electricalType sym.libId)) pi) pi
  let pi := s.powerSymbols.foldl
    (fun pi sym => sym.pins.foldl
      (fun pi p => addPoint pi p.position (.powerItem sym.value sym.reference)) pi) pi
  let pi := s.labels.foldl
    (fun pi lb => addPoint pi lb.position (.labelItem lb.name lb.type)) pi
  s.junctions.foldl (fun pi j => addPoint pi j .junctionItem) pi

/-- The union-find parent map (lines 426-450), an association list standing
for the Python dict. -/
abbrev Parent := List (Key × Key)

/-- Chase parent pointers to the root.  The source's `_find` also halves the
path as it walks; path halving mutates `parent` but provably never changes
any key's root, so it is omitted here.  The fuel bound `|parent| + 1` is
enough because parent chains built by `ufUnion` are acyclic and every hop
consumes a distinct map entry. -/
def ufFindRoot : ℕ → Parent → Key → Key
  | 0, _, p => p
  | fuel + 1, par, p =>
      match lookupAssoc par p with
      | none => p
      | some q => if q = p then p else ufFindRoot fuel par q

/-- `_find` (lines 428-434): inserts the key as its own parent when absent,
then returns its root (and the possibly-extended map). -/
def ufFind (par : Parent) (p : Key) : Key × Parent :=
  match lookupAssoc par p with
  | none => (p, setAssoc par p p)
  | some _ => (ufFindRoot (par.length + 1) par p, par)

/-- `_union` (lines 436-439). -/
def ufUnion (par : Parent) (a b : Key) : Parent :=
  let fa := ufFind par a
  let fb := ufFind fa.2 b
  if fa.1 = fb.1 then fb.2 else setAssoc fb.2 fa.1 fb.1

/-- The parent map after the wire-union pass (lines 442-445). -/
def unionWires (s : Schematic) : Parent :=
  s.wires.foldl (fun par w => ufUnion par (roundCoord w.start) (roundCoord w.stop)) []

/-- The parent map after also registering every collected point
(lines 448-450). -/
def parentAll (s : Schematic) : Parent :=
  (pointItems s).foldl (fun par kv => (ufFind par kv.1).2) (unionWires s)

/-- Root of a key in a completed parent map. -/
def rootOf (par : Parent) (k : Key) : Key :=
  ufFindRoot (par.length + 1) par k

/-- The `groups` map (lines 453-458): buckets of `point_items` concatenated
under their root, in first-occurrence order. -/
def groupsOf (s : Schematic) : List (Key × List NItem) :=
  let par := parentAll s
  (pointItems s).foldl (fun gs kv => extendAssoc gs (rootOf par kv.1) kv.2) []

/-- The net name carried by an item, if any: the source takes the first item
whose `type` is `label` or `power` (both always carry `net_name`). -/
def itemNetName : NItem → Option String
  | .powerItem n _ => some n
  | .labelItem n _ => some n
  | _ => none

/-- The reference string of a pin item (lines 479-483):
`"REF:NUMBER"`, with `"(NAME)"` appended when the pin name is nonempty. -/
def pinRefOfItem : NItem → Option String
  | .pinItem ref nm num _ _ =>
      some (ref ++ ":" ++ num ++ (if nm ≠ "" then "(" ++ nm ++ ")" else ""))
  | _ => none

/-- The naming loop (lines 461-483) before the nets dict is filled: each
group yields its name (first label/power name, else a synthesized
`_unnamed_net_{n}`; the counter advances for every unnamed group, whether or
not the group is later dropped for having no pins) and its pin references in
group order. -/
def namedGroupsAux : List (Key × List NItem) → ℕ → List (String × List String)
  | [], _ => []
  | (_, items) :: rest, c =>
      match items.findSome? itemNetName with
      | some n => (n, items.filterMap pinRefOfItem) :: namedGroupsAux rest c
      | none =>
          ("_unnamed_net_" ++ toString (c + 1), items.filterMap pinRefOfItem) ::
            namedGroupsAux rest (c + 1)

/-- The `(net name, pin refs)` pairs of all groups in discovery order. -/
def namedGroups (gs : List (Key × List NItem)) : List (String × List String) :=
  namedGroupsAux gs 0

/-- Lines 485-489: a group with no pin references adds nothing; otherwise its
references are appended to the entry under its name (creating it if new). -/
def netsAdd (nets : List (String × List String)) (n : String)
    (refs : List String) : List (String × List String) :=
  if refs = [] then nets else extendAssoc nets n refs

/-- `_build_net_connectivity` (lines 365-491). -/
def buildNetConnectivity (s : Schematic) : List (String × List String) :=
  (namedGroups (groupsOf s)).foldl (fun nets p => netsAdd nets p.1 p.2) []

/-! ## Schematic assembly (`parse_kicad_sch`, lines 198-362) -/

/-- `_compute_pin_endpoint` over `ℚ` (lines 175-180). -/
def computePinEndpointQ (pin : LibPin) : ℚ × ℚ :=
  let d := rotatePointQ pin.length 0 (-pin.rotation)
  (pin.x + d.1, pin.y + d.2)

/-- `_compute_absolute_pin_position` over `ℚ` (lines 183-195). -/
def computeAbsolutePinPositionQ (symbolX symbolY symbolRot : ℚ)
    (mirrorX mirrorY : Bool) (ex ey : ℚ) : ℚ × ℚ :=
  let px := if mirrorX then -ex else ex
  let py := if mirrorY then -ey else ey
  let r := rotatePointQ px py (-symbolRot)
  (symbolX + r.1, symbolY + r.2)

/-- The root of the token tree as a list of items.  `tokenize_sexpr` may
return a bare string; iterating a Python string yields one-character
strings, none of which is a list, so every tagged-node search finds nothing
— the same as iterating an empty list. -/
def toTokList : Tok → List Tok
  | .list l => l
  | .atom _ => []

/-- The `lib_symbols` table (lines 229-241). -/
def parseLibSymbols (sexpr : List Tok) : Option (List (String × LibSymbol)) :=
  match findNode sexpr "lib_symbols" with
  | none => pure []
  | some libNode =>
      (findNodes libNode "symbol").foldlM (fun table symNode =>
        match symNode.get? 1 with
        | none => pure table
        | some t => do
            let libId ← atomOfTok t
            let pins ← parseLibSymbolPins symNode 0
            let isPower := (findNode symNode "power").isSome
            pure (setAssoc table libId ⟨libId, pins, isPower⟩)) []

/-- One placed `symbol` node (lines 248-316). -/
def parseSymbolInstance (libTable : List (String × LibSymbol))
    (symNode : List Tok) : Option SymbolInst := do
  let libId ← match findNode symNode "lib_id" with
    | some n =>
        match n.get? 1 with
        | some t => atomOfTok t
        | none => pure ""
    | none => pure ""
  let xyz ← match findNode symNode "at" with
    | some atNode => getXYZ atNode
    | none => pure ((0 : ℚ), (0 : ℚ), (0 : ℚ))
  let ms := ((findNode symNode "mirror").getD []).drop 1
  let mirrorX := ms.any (· = Tok.atom "x")
  let mirrorY := ms.any (· = Tok.atom "y")
  let unit ← match findNode symNode "unit" with
    | some n =>
        match n.get? 1 with
        | some t => do
            let s ← atomOfTok t
            parseInt s
        | none => pure 1
    | none => pure 1
  let uuid ← match findNode symNode "uuid" with
    | some n =>
        match n.get? 1 with
        | some t => atomOfTok t
        | none => pure ""
    | none => pure ""
  let properties ← (findNodes symNode "property").foldlM (fun props pn =>
      match pn.get? 1, pn.get? 2 with
      | some kt, some vt => do
          let k ← atomOfTok kt
          let v ← atomOfTok vt
          pure (setAssoc props k v)
      | _, _ => pure props) []
  let reference := (lookupAssoc properties "Reference").getD ""
  let value := (lookupAssoc properties "Value").getD ""
  let footprint := (lookupAssoc properties "Footprint").getD ""
  let libSym := lookupAssoc libTable libId
  let isPower := (libSym.map (·.isPower)).getD false
  let libPins := (libSym.map (·.pins)).getD []
  let absPins := libPins.filterMap (fun pin =>
      if pin.unit ≠ 0 ∧ pin.unit ≠ unit then none
      else
        let e := computePinEndpointQ pin
        let ap := computeAbsolutePinPositionQ xyz.1 xyz.2.1 xyz.2.2
                    mirrorX mirrorY e.1 e.2
        some ⟨pin.name, pin.number, pin.electricalType, ap⟩)
  pure { libId := libId, reference := reference, value := value,
         footprint := footprint, unit := unit, uuid := uuid,
         placement := xyz, mirrorX := mirrorX, mirrorY := mirrorY,
         properties := properties, pins := absPins, isPower := isPower }

/-- The source's label-type strings (line 343): `label` → `local`,
`global_label` → `global`, `hierarchical_label` → `hierarchical`, computed
there by string replacement. -/
def labelTypeName (lt : String) : String :=
  if lt = "label" then "local"
  else if lt = "global_label" then "global"
  else "hierarchical"

/-- `parse_kicad_sch` (lines 198-362).  `none` models a raised exception. -/
def parseKicadSch (content : String) : Option Schematic := do
  let sexpr := toTokList (tokenizeSexpr content)
  let version := getValueTok sexpr "version" (Tok.atom "")
  let libTable ← parseLibSymbols sexpr
  let sp ← (findNodes sexpr "symbol").foldlM
    (fun (acc : List SymbolInst × List SymbolInst) symNode =>
      if symNode.length < 2 then pure acc
      else do
        let sd ← parseSymbolInstance libTable symNode
        if sd.isPower then pure (acc.1, acc.2 ++ [sd])
        else pure (acc.1 ++ [sd], acc.2)) ([], [])
  let wires ← (findNodes sexpr "wire").foldlM (fun ws wireNode =>
      match findNode wireNode "pts" with
      | none => pure ws
      | some pts => do
          let points ← (findNodes pts "xy").mapM getXY
          match points with
          | p0 :: p1 :: _ => pure (ws ++ [Wire.mk p0 p1])
          | _ => pure ws) []
  let labels ← ["label", "global_label", "hierarchical_label"].foldlM (fun ls lt =>
      (findNodes sexpr lt).foldlM (fun ls ln =>
        match ln.get? 1 with
        | none => pure ls
        | some t => do
            let nm ← atomOfTok t
            let pos ← match findNode ln "at" with
              | some a => getXY a
              | none => pure ((0 : ℚ), (0 : ℚ))
            pure (ls ++ [SchLabel.mk nm (labelTypeName lt) pos])) ls) []
  let junctions ← (findNodes sexpr "junction").foldlM (fun js jn =>
      match findNode jn "at" with
      | some a => do
          let p ← getXY a
          pure (js ++ [p])
      | none => pure js) []
  let noConnects ← (findNodes sexpr "no_connect").foldlM (fun ns nc =>
      match findNode nc "at" with
      | some a => do
          let p ← getXY a
          pure (ns ++ [p])
      | none => pure ns) []
  let pre : Schematic :=
    { version := version, symbols := sp.1, wires := wires, labels := labels,
      junctions := junctions, noConnects := noConnects, powerSymbols := sp.2,
      libSymbols := libTable, nets := [] }
  pure { pre with nets := buildNetConnectivity pre }

/-! ## Concrete scenario inputs -/

/-- The spec's resistor-between-two-labels scenario: a `Device:R` whose pin
endpoints land at `(0,0)` and `(2.54,0)` (pin anchors at `(-2.54,0)` and
`(0,0)`, default length 2.54, rotation 0), wired to labels `VCC` and `GND`. -/
def schTwoLabels : String :=
  "(kicad_sch (version 20231120)
  (lib_symbols
    (symbol \"Device:R\"
      (pin passive line (at -2.54 0 0) (number \"1\"))
      (pin passive line (at 0 0 0) (number \"2\"))))
  (symbol (lib_id \"Device:R\") (at 0 0 0) (unit 1)
    (property \"Reference\" \"R1\") (property \"Value\" \"R\"))
  (wire (pts (xy 0 0) (xy -2.54 0)))
  (wire (pts (xy 2.54 0) (xy 5.08 0)))
  (label \"VCC\" (at -2.54 0))
  (label \"GND\" (at 5.08 0)))"

/-- The spec's orphan-label scenario: a single label `CLK` at the origin and
nothing else. -/
def schOrphanLabel : String := "(kicad_sch (label \"CLK\" (at 0 0)))"

/-- The spec's two-power-symbols scenario: two `+5V` power symbols whose pin
endpoints land at `(0,0)` and `(10,0)`, joined by one wire between exactly
those points. -/
def schTwoPower : String :=
  "(kicad_sch
  (lib_symbols (symbol \"power:+5V\" (power)
    (pin power_in line (at -2.54 0 0) (number \"1\"))))
  (symbol (lib_id \"power:+5V\") (at 0 0 0)
    (property \"Value\" \"+5V\") (property \"Reference\" \"#PWR01\"))
  (symbol (lib_id \"power:+5V\") (at 10 0 0)
    (property \"Value\" \"+5V\") (property \"Reference\" \"#PWR02\"))
  (wire (pts (xy 0 0) (xy 10 0))))"

/-- A symbol instance whose `at` node carries non-numeric atoms. -/
def schBadAt : String := "(kicad_sch (symbol (lib_id \"X\") (at a b)))"

/-- A symbol instance whose `unit` node carries a non-numeric atom. -/
def schBadUnit : String := "(kicad_sch (symbol (lib_id \"X\") (unit x)))"

/-- A symbol instance with no `at` node at all. -/
def schMissingAt : String :=
  "(kicad_sch (symbol (lib_id \"X\") (property \"Reference\" \"U1\")))"

/-- A single resistor and nothing else: both pins coincide with no wire
endpoint, label, power pin or junction. -/
def schLonePin : String :=
  "(kicad_sch
  (lib_symbols (symbol \"Device:R\"
      (pin passive line (at -2.54 0 0) (number \"1\"))
      (pin passive line (at 0 0 0) (number \"2\"))))
  (symbol (lib_id \"Device:R\") (at 0 0 0) (property \"Reference\" \"R1\")))"

/-- Two instances sharing the reference designator `R1` (as happens for the
units of a multi-unit part), placed apart and unconnected: both produce the
pin reference string `R1:1`. -/
def schDupRef : String :=
  "(kicad_sch
  (lib_symbols (symbol \"Device:R\" (pin passive line (at 0 0 0) (number \"1\"))))
  (symbol (lib_id \"Device:R\") (at 0 0 0) (property \"Reference\" \"R1\"))
  (symbol (lib_id \"Device:R\") (at 10 0 0) (property \"Reference\" \"R1\")))"

/-! ## Tokenizer lemmas -/

/-- A quoted-atom scan over text with no closing quote consumes everything:
the whole remainder becomes the atom. -/
theorem scanQuoted_no_quote (cs : List Char) (h : '"' ∉ cs) :
    scanQuoted cs = (cs, []) := by
  induction cs using scanQuoted.induct with
  | case1 => simp [scanQuoted]
  | case2 rest => simp at h
  | case3 c rest ih =>
      simp at h
      simp [scanQuoted, ih h.2]
  | case4 => simp [scanQuoted]
  | case5 c rest h1 h2 h3 ih =>
      simp at h
      simp [scanQuoted, h1, h2, h3, ih h.2]

/-! ## Claim theorems -/

/-- C6: `tokenize_sexpr` is total — the embedding is a total function by
construction — and in particular (i) a `)` scanned while only the root list
is open is a no-op, and (ii) a quote with no matching closing quote turns
the entire remainder of the text into a single atom. -/
theorem C6_tokenizer_total_and_tolerant :
    (∀ (cs : List Char) (top : List Tok),
        tokenizeAux (')' :: cs) [top] = tokenizeAux cs [top]) ∧
    (∀ cs : List Char, '"' ∉ cs →
        tokenizeSexpr (String.mk ('"' :: cs)) = Tok.atom (String.mk cs)) := by
  constructor
  · intro cs top
    simp [tokenizeAux]
  · intro cs h
    have hstep : tokenizeAux ('"' :: cs) [[]]
        = tokenizeAux (scanQuoted cs).2
            (pushTop [[]] (Tok.atom (String.mk (scanQuoted cs).1))) := by
      simp [tokenizeAux]
    rw [tokenizeSexpr_eq]
    show (match closeAll (tokenizeAux ('"' :: cs) [[]]) with
          | [t] => t
          | ts => Tok.list ts) = Tok.atom (String.mk cs)
    rw [hstep, scanQuoted_no_quote cs h]
    simp [tokenizeAux, pushTop, closeAll, closeAllAux]

/-- Witness for C6 at concrete inputs. -/
theorem C6_witness :
    tokenizeAux [')', 'x'] [[Tok.atom "y"]] = tokenizeAux ['x'] [[Tok.atom "y"]] ∧
    tokenizeSexpr (String.mk ['"', 'a', 'b']) = Tok.atom (String.mk ['a', 'b']) :=
  ⟨C6_tokenizer_total_and_tolerant.1 ['x'] [Tok.atom "y"],
   C6_tokenizer_total_and_tolerant.2 ['a', 'b'] (by decide)⟩

/-- C7: for every library pin and symbol instance the absolute pin position
is computed as the spec states: the endpoint is the pin's local anchor plus
`(length, 0)` rotated by minus the pin rotation; the endpoint is then
mirrored (x negated under mirror-x, y under mirror-y), rotated by minus the
instance rotation, and finally translated by the instance position — mirror
before rotation, rotation before translation.  (The defaults the claim
names — length 2.54, rotation 0 — are applied when the pin is parsed, see
`parsePinNode`.)  The angle-0 short-circuit of `_rotate_point` makes no
difference over `ℝ`. -/
theorem C7_absolute_pin_position_formula
    (pinX pinY length rotation symbolX symbolY symbolRot : ℝ)
    (mirrorX mirrorY : Bool) :
    computeAbsolutePinPositionR symbolX symbolY symbolRot mirrorX mirrorY
      (computePinEndpointR pinX pinY length rotation).1
      (computePinEndpointR pinX pinY length rotation).2
    = specAbsolutePinPosition pinX pinY length rotation
        symbolX symbolY symbolRot mirrorX mirrorY := by
  simp only [computePinEndpointR, computeAbsolutePinPositionR,
    specAbsolutePinPosition, rotatePointR_eq_formula]

set_option maxRecDepth 40000 in
/-- C3: for a schematic containing one label node `CLK` at `(0,0)` and
nothing coincident with it, the returned nets mapping has no key `CLK` — a
group with zero pin members does not appear in the output.  The label is
parsed (second conjunct) but its group is dropped, leaving no nets at all. -/
theorem C3_orphan_label_absent :
    (parseKicadSch schOrphanLabel).map Schematic.nets = some [] ∧
    (parseKicadSch schOrphanLabel).map
        (fun s => (lookupAssoc s.nets "CLK", s.labels))
      = some (none, [SchLabel.mk "CLK" "local" (0, 0)]) := by
  constructor <;> with_unfolding_all decide

set_option maxRecDepth 400000 in
/-- C8: the resistor-between-two-labels scenario parses to exactly the nets
`VCC ↦ [R1:1]`, `GND ↦ [R1:2]`; the second conjunct checks the pin
endpoints sit at `(0,0)` and `(2.54,0)` as the scenario requires. -/
theorem C8_resistor_between_two_labels :
    (parseKicadSch schTwoLabels).map Schematic.nets
      = some [("VCC", ["R1:1"]), ("GND", ["R1:2"])] ∧
    (parseKicadSch schTwoLabels).map
        (fun s => s.symbols.map (fun sy => sy.pins.map PinInst.position))
      = some [[(0, 0), (254 / 100, 0)]] := by
  constructor <;> with_unfolding_all decide

set_option maxRecDepth 40000 in
/-- C10: `parse_kicad_sch` is not total — a present-but-non-numeric `at` or
`unit` field makes the conversion raise (modelled as `none`), while a wholly
missing `at` field falls back to the typed default `(0,0,0)`. -/
theorem C10_numeric_fields_raise :
    parseKicadSch schBadAt = none ∧
    parseKicadSch schBadUnit = none ∧
    (parseKicadSch schMissingAt).map (fun s => s.symbols.map SymbolInst.placement)
      = some [(0, 0, 0)] := by
  refine ⟨?_, ?_, ?_⟩ <;> with_unfolding_all decide

set_option maxRecDepth 400000 in
/-- Counterexample to C1 as stated: in `schLonePin` the pin of `R1` at
`(0,0)` (and the one at `(2.54,0)`) coincides with no wire endpoint, label,
power pin or junction — the schematic has none at all (second conjunct) —
yet each pin produces an entry in a synthesized unnamed net instead of
being absent from every net. -/
theorem C1_counterexample :
    (parseKicadSch schLonePin).map Schematic.nets
      = some [("_unnamed_net_1", ["R1:1"]), ("_unnamed_net_2", ["R1:2"])] ∧
    (parseKicadSch schLonePin).map
        (fun s => (s.wires, s.labels, s.powerSymbols, s.junctions))
      = some ([], [], [], []) := by
  constructor <;> with_unfolding_all decide

set_option maxRecDepth 400000 in
/-- Counterexample to C2 as stated: the two-power-symbols scenario yields an
empty nets mapping — there is no entry under `+5V` at all (the group has no
pin members and is dropped), even though the power pins sit at `(0,0)` and
`(10,0)` joined by the wire (second conjunct). -/
theorem C2_counterexample :
    (parseKicadSch schTwoPower).map Schematic.nets = some [] ∧
    (parseKicadSch schTwoPower).map
        (fun s => (lookupAssoc s.nets "+5V",
                   s.powerSymbols.map (fun ps => ps.pins.map PinInst.position),
                   s.wires))
      = some (none, [[(0, 0)], [(10, 0)]], [Wire.mk (0, 0) (10, 0)]) := by
  constructor <;> with_unfolding_all decide

set_option maxRecDepth 400000 in
/-- Counterexample to C4 as stated: two placed instances share the reference
`R1`, so the pin reference string `R1:1` appears in the member lists of two
different nets. -/
theorem C4_counterexample :
    (parseKicadSch schDupRef).map Schematic.nets
      = some [("_unnamed_net_1", ["R1:1"]), ("_unnamed_net_2", ["R1:1"])] ∧
    ¬ (parseKicadSch schDupRef).map
        (fun s => decide ((s.nets.filter (fun p => "R1:1" ∈ p.2)).length ≤ 1))
      = some true := by
  constructor <;> with_unfolding_all decide

/-! ## Association-list lemmas -/

/-- Entries added by `extendAssoc` keep every stored list nonempty. -/
theorem extendAssoc_snd_ne_nil {α β : Type} [DecidableEq α]
    (l : List (α × List β)) (k : α) (its : List β)
    (hl : ∀ p ∈ l, p.2 ≠ []) (hits : its ≠ []) :
    ∀ p ∈ extendAssoc l k its, p.2 ≠ [] := by
  induction l with
  | nil =>
      intro p hp
      simp [extendAssoc] at hp
      simp [hp, hits]
  | cons q t ih =>
      intro p hp
      rw [extendAssoc] at hp
      by_cases hk : q.1 = k
      · simp [hk] at hp
        rcases hp with hp | hp
        · simp only [hp]
          intro hq
          exact absurd (List.append_eq_nil.mp hq).2 hits
        · exact hl p (by simp [hp])
      · simp [hk] at hp
        rcases hp with hp | hp
        · exact hl p (by simp [hp])
        · exact ih (fun p hp => hl p (by simp [hp])) p hp

/-- Folding `netsAdd` keeps every stored list nonempty. -/
theorem netsFold_snd_ne_nil (ngs : List (String × List String)) :
    ∀ (nets0 : List (String × List String)), (∀ p ∈ nets0, p.2 ≠ []) →
      ∀ p ∈ ngs.foldl (fun nets q => netsAdd nets q.1 q.2) nets0, p.2 ≠ [] := by
  induction ngs with
  | nil => intro nets0 h0; simpa using h0
  | cons q t ih =>
      intro nets0 h0
      simp only [List.foldl_cons]
      apply ih
      unfold netsAdd
      split
      · exact h0
      · exact extendAssoc_snd_ne_nil nets0 q.1 q.2 h0 (by assumption)

/-- A small assembled schematic with one pin on one named net, used as a
witness input. -/
def schOneNetS : Schematic :=
  { version := Tok.atom "", wires := [], junctions := [], noConnects := [],
    powerSymbols := [], libSymbols := [], nets := [],
    symbols := [{ libId := "Device:R", reference := "R1", value := "R",
                  footprint := "", unit := 1, uuid := "",
                  placement := (0, 0, 0), mirrorX := false, mirrorY := false,
                  properties := [], isPower := false,
                  pins := [⟨"", "1", "passive", (0, 0)⟩] }],
    labels := [⟨"N", "local", (0, 0)⟩] }

/-- C2 (amended): every entry of the returned nets mapping has a nonempty
pin list — a group whose only members are name-bearing (power points or
labels) yields no entry at all, as `C2_counterexample` shows concretely for
the two-power-symbol scenario. -/
theorem C2_every_net_has_pins (s : Schematic) (n : String) (l : List String)
    (h : (n, l) ∈ buildNetConnectivity s) : l ≠ [] :=
  netsFold_snd_ne_nil (namedGroups (groupsOf s)) [] (by simp) (n, l) h

/-- Witness for C2 at a concrete schematic with one nonempty net. -/
theorem C2_witness :
    ("N", ["R1:1"]) ∈ buildNetConnectivity schOneNetS ∧ ["R1:1"] ≠ [] :=
  ⟨by with_unfolding_all decide,
   C2_every_net_has_pins schOneNetS "N" ["R1:1"] (by with_unfolding_all decide)⟩

/-! ## Pin-occurrence bookkeeping (towards C4)

`valsFlat` concatenates all lists stored in an association list; the chain
of permutation lemmas below tracks the multiset of items through
`point_items`, `groups` and `nets`. -/

/-- All values of a list-valued association list, concatenated in order. -/
def valsFlat {α β : Type} (l : List (α × List β)) : List β :=
  (l.map Prod.snd).flatten

/-- The full insertion sequence fed to `_add_point`, in source order. -/
def insertionSeq (s : Schematic) : List ((ℚ × ℚ) × NItem) :=
  (s.wires.flatMap fun w => [(w.start, NItem.wirePoint), (w.stop, NItem.wirePoint)])
  ++ (s.symbols.flatMap fun sym => sym.pins.map fun p =>
        (p.position, NItem.pinItem sym.reference p.name p.number p.electricalType sym.libId))
  ++ (s.powerSymbols.flatMap fun sym => sym.pins.map fun p =>
        (p.position, NItem.powerItem sym.value sym.reference))
  ++ (s.labels.map fun lb => (lb.position, NItem.labelItem lb.name lb.type))
  ++ (s.junctions.map fun j => (j, NItem.junctionItem))

/-- Fold `_add_point` over a sequence of point/item pairs. -/
def addPoints (pi : List (Key × List NItem)) (ps : List ((ℚ × ℚ) × NItem)) :
    List (Key × List NItem) :=
  ps.foldl (fun pi pr => addPoint pi pr.1 pr.2) pi

theorem addPoints_append (pi : List (Key × List NItem))
    (a b : List ((ℚ × ℚ) × NItem)) :
    addPoints pi (a ++ b) = addPoints (addPoints pi a) b :=
  List.foldl_append _ _ _ _

theorem foldl_addPoint_map {γ : Type} (g : γ → (ℚ × ℚ) × NItem) (l : List γ)
    (pi : List (Key × List NItem)) :
    l.foldl (fun pi x => addPoint pi (g x).1 (g x).2) pi = addPoints pi (l.map g) :=
  (List.foldl_map g (fun pi pr => addPoint pi pr.1 pr.2) l pi).symm

theorem foldl_addPoint_wires (ws : List Wire) (pi : List (Key × List NItem)) :
    ws.foldl (fun pi w => addPoint (addPoint pi w.start .wirePoint) w.stop .wirePoint) pi
      = addPoints pi
          (ws.flatMap fun w => [(w.start, NItem.wirePoint), (w.stop, NItem.wirePoint)]) := by
  induction ws generalizing pi with
  | nil => rfl
  | cons w t ih =>
      simp only [List.flatMap_cons, List.foldl_cons]
      rw [addPoints_append, ih]
      rfl

theorem foldl_addPoint_pins (f : SymbolInst → PinInst → NItem)
    (syms : List SymbolInst) (pi : List (Key × List NItem)) :
    syms.foldl (fun pi sym =>
        sym.pins.foldl (fun pi p => addPoint pi p.position (f sym p)) pi) pi
      = addPoints pi (syms.flatMap fun sym => sym.pins.map fun p => (p.position, f sym p)) := by
  induction syms generalizing pi with
  | nil => rfl
  | cons sym t ih =>
      simp only [List.flatMap_cons, List.foldl_cons]
      rw [addPoints_append, ih,
        foldl_addPoint_map (fun p => (p.position, f sym p)) sym.pins pi]

theorem foldl_addPoint_labels (ls : List SchLabel) (pi : List (Key × List NItem)) :
    ls.foldl (fun pi lb => addPoint pi lb.position (.labelItem lb.name lb.type)) pi
      = addPoints pi (ls.map fun lb => (lb.position, NItem.labelItem lb.name lb.type)) := by
  induction ls generalizing pi with
  | nil => rfl
  | cons lb t ih =>
      simp only [List.map_cons, List.foldl_cons]
      rw [ih]
      rfl

theorem foldl_addPoint_junctions (js : List (ℚ × ℚ)) (pi : List (Key × List NItem)) :
    js.foldl (fun pi j => addPoint pi j .junctionItem) pi
      = addPoints pi (js.map fun j => (j, NItem.junctionItem)) := by
  induction js generalizing pi with
  | nil => rfl
  | cons j t ih =>
      simp only [List.map_cons, List.foldl_cons]
      rw [ih]
      rfl

/-- `point_items` is the fold of `_add_point` over the full insertion
sequence. -/
theorem pointItems_eq_addPoints (s : Schematic) :
    pointItems s = addPoints [] (insertionSeq s) := by
  simp only [pointItems, insertionSeq]
  rw [foldl_addPoint_wires,
    foldl_addPoint_pins (fun sym p =>
      NItem.pinItem sym.reference p.name p.number p.electricalType sym.libId),
    foldl_addPoint_pins (fun sym p => NItem.powerItem sym.value sym.reference),
    foldl_addPoint_labels, foldl_addPoint_junctions,
    addPoints_append, addPoints_append, addPoints_append, addPoints_append]

open List in
theorem valsFlat_extendAssoc {α β : Type} [DecidableEq α]
    (l : List (α × List β)) (k : α) (its : List β) :
    List.Perm (valsFlat (extendAssoc l k its)) (valsFlat l ++ its) := by
  induction l with
  | nil => simp [extendAssoc, valsFlat]
  | cons q t ih =>
      rw [extendAssoc]
      by_cases hk : q.1 = k
      · simp only [hk, if_pos rfl, valsFlat, List.map_cons, List.flatten_cons]
        calc (q.2 ++ its) ++ (t.map Prod.snd).flatten
            = q.2 ++ (its ++ (t.map Prod.snd).flatten) := by rw [List.append_assoc]
          _ ~ q.2 ++ ((t.map Prod.snd).flatten ++ its) :=
              List.Perm.append_left _ List.perm_append_comm
          _ = (q.2 ++ (t.map Prod.snd).flatten) ++ its := by rw [List.append_assoc]
      · simp only [if_neg hk, valsFlat, List.map_cons, List.flatten_cons]
        calc q.2 ++ (List.map Prod.snd (extendAssoc t k its)).flatten
            ~ q.2 ++ ((t.map Prod.snd).flatten ++ its) := List.Perm.append_left _ ih
          _ = (q.2 ++ (t.map Prod.snd).flatten) ++ its := by rw [List.append_assoc]

open List in
/-- Generic: folding `extendAssoc` preserves the stored items up to
permutation. -/
theorem valsFlat_foldl_extendAssoc {α β γ : Type} [DecidableEq α]
    (f : γ → α) (g : γ → List β) (l : List γ) :
    ∀ init, List.Perm
      (valsFlat (l.foldl (fun acc c => extendAssoc acc (f c) (g c)) init))
      (valsFlat init ++ l.flatMap g) := by
  induction l with
  | nil => intro init; simp
  | cons c t ih =>
      intro init
      simp only [List.foldl_cons, List.flatMap_cons]
      calc valsFlat (t.foldl (fun acc c => extendAssoc acc (f c) (g c))
              (extendAssoc init (f c) (g c)))
          ~ valsFlat (extendAssoc init (f c) (g c)) ++ t.flatMap g := ih _
        _ ~ (valsFlat init ++ g c) ++ t.flatMap g :=
            (valsFlat_extendAssoc init (f c) (g c)).append_right _
        _ = valsFlat init ++ (g c ++ t.flatMap g) := List.append_assoc _ _ _

open List in
theorem valsFlat_netsFold (ngs : List (String × List String)) :
    ∀ nets0, List.Perm
      (valsFlat (ngs.foldl (fun nets q => netsAdd nets q.1 q.2) nets0))
      (valsFlat nets0 ++ ngs.flatMap Prod.snd) := by
  induction ngs with
  | nil => intro nets0; simp
  | cons q t ih =>
      intro nets0
      simp only [List.foldl_cons, List.flatMap_cons]
      unfold netsAdd
      split
      · rename_i hq
        calc valsFlat (t.foldl (fun nets q => netsAdd nets q.1 q.2) nets0)
            ~ valsFlat nets0 ++ t.flatMap Prod.snd := ih nets0
          _ = valsFlat nets0 ++ (q.2 ++ t.flatMap Prod.snd) := by rw [hq]; rfl
      · calc valsFlat (t.foldl (fun nets q => netsAdd nets q.1 q.2)
                (extendAssoc nets0 q.1 q.2))
            ~ valsFlat (extendAssoc nets0 q.1 q.2) ++ t.flatMap Prod.snd := ih _
          _ ~ (valsFlat nets0 ++ q.2) ++ t.flatMap Prod.snd :=
              (valsFlat_extendAssoc nets0 q.1 q.2).append_right _
          _ = valsFlat nets0 ++ (q.2 ++ t.flatMap Prod.snd) := List.append_assoc _ _ _

/-- The naming pass keeps each group's pin references, in order. -/
theorem namedGroupsAux_map_snd (gs : List (Key × List NItem)) :
    ∀ c, (namedGroupsAux gs c).map Prod.snd
      = gs.map (fun kv => kv.2.filterMap pinRefOfItem) := by
  induction gs with
  | nil => intro c; rfl
  | cons kv t ih =>
      intro c
      rw [namedGroupsAux]
      cases kv.2.findSome? itemNetName <;> simp [ih]

theorem flatten_map_filterMap {α β γ : Type} (gs : List (γ × List α)) (f : α → Option β) :
    (gs.map (fun kv => kv.2.filterMap f)).flatten = (valsFlat gs).filterMap f := by
  induction gs with
  | nil => rfl
  | cons kv t ih =>
      simp only [valsFlat, List.map_cons, List.flatten_cons, List.filterMap_append, ih]

theorem valsFlat_nil {α β : Type} : valsFlat ([] : List (α × List β)) = [] := rfl

theorem flatMap_singleton_map {α β : Type} (l : List α) (f : α → β) :
    (l.flatMap fun x => [f x]) = l.map f := by
  induction l with
  | nil => rfl
  | cons a t ih => simp [ih]

/-- The reference string a pin of a placed symbol contributes
(`"REF:NUMBER"` or `"REF:NUMBER(NAME)"`). -/
def pinRefString (reference : String) (p : PinInst) : String :=
  reference ++ ":" ++ p.number ++ (if p.name ≠ "" then "(" ++ p.name ++ ")" else "")

/-- The pin reference strings of all placed (non-power) symbols, in order. -/
def allPinRefs (s : Schematic) : List String :=
  s.symbols.flatMap fun sym => sym.pins.map (pinRefString sym.reference)

theorem insertionSeq_pinRefs (s : Schematic) :
    ((insertionSeq s).map Prod.snd).filterMap pinRefOfItem = allPinRefs s := by
  unfold insertionSeq allPinRefs
  simp only [List.map_append, List.filterMap_append]
  have h1 : ∀ ws : List Wire,
      (((ws.flatMap fun w => [(w.start, NItem.wirePoint), (w.stop, NItem.wirePoint)])).map
          Prod.snd).filterMap pinRefOfItem = [] := by
    intro ws
    induction ws with
    | nil => rfl
    | cons w t ih => simp [ih, pinRefOfItem]
  have h2 : ∀ syms : List SymbolInst,
      (((syms.flatMap fun sym => sym.pins.map fun p =>
            (p.position, NItem.pinItem sym.reference p.name p.number p.electricalType sym.libId))).map
          Prod.snd).filterMap pinRefOfItem
        = syms.flatMap fun sym => sym.pins.map (pinRefString sym.reference) := by
    intro syms
    induction syms with
    | nil => rfl
    | cons sym t ih =>
        simp only [List.flatMap_cons, List.map_append, List.filterMap_append, ih,
          List.map_map]
        congr 1
        induction sym.pins with
        | nil => rfl
        | cons p pt ihp =>
            simp [pinRefOfItem, pinRefString, ihp, Function.comp]
  have h3 : ∀ syms : List SymbolInst,
      (((syms.flatMap fun sym => sym.pins.map fun p =>
            (p.position, NItem.powerItem sym.value sym.reference))).map
          Prod.snd).filterMap pinRefOfItem = [] := by
    intro syms
    induction syms with
    | nil => rfl
    | cons sym t ih =>
        simp only [List.flatMap_cons, List.map_append, List.filterMap_append, ih,
          List.map_map, List.append_nil]
        induction sym.pins with
        | nil => rfl
        | cons p pt ihp => simpa [pinRefOfItem, Function.comp] using ihp
  have h4 : ((s.labels.map fun lb => (lb.position, NItem.labelItem lb.name lb.type)).map
          Prod.snd).filterMap pinRefOfItem = [] := by
    induction s.labels with
    | nil => rfl
    | cons lb t ih => simpa [pinRefOfItem] using ih
  have h5 : ((s.junctions.map fun j => (j, NItem.junctionItem)).map
          Prod.snd).filterMap pinRefOfItem = [] := by
    induction s.junctions with
    | nil => rfl
    | cons j t ih => simpa [pinRefOfItem] using ih
  rw [h1, h2, h3, h4, h5]
  simp

open List in
/-- C4 (amended): the member lists of the returned nets, concatenated, are a
permutation of the pin-reference sequence of all placed symbols' pins: every
pin occurrence lands in exactly one net entry (the string-level at-most-one
claim fails when two occurrences share a reference string, see
`C4_counterexample`). -/
theorem C4_nets_are_pin_occurrence_partition (s : Schematic) :
    List.Perm (valsFlat (buildNetConnectivity s)) (allPinRefs s) := by
  unfold buildNetConnectivity
  have step1 := valsFlat_netsFold (namedGroups (groupsOf s)) []
  have step2 : (namedGroups (groupsOf s)).flatMap Prod.snd
      = (valsFlat (groupsOf s)).filterMap pinRefOfItem := by
    rw [List.flatMap_def]
    unfold namedGroups
    rw [namedGroupsAux_map_snd (groupsOf s) 0, flatten_map_filterMap]
  have step3 : List.Perm (valsFlat (groupsOf s)) (valsFlat (pointItems s)) := by
    unfold groupsOf
    have h := valsFlat_foldl_extendAssoc
      (fun kv : Key × List NItem => rootOf (parentAll s) kv.1) Prod.snd
      (pointItems s) []
    refine h.trans ?_
    rw [valsFlat_nil, List.nil_append, List.flatMap_def]
    exact List.Perm.refl _
  have step4 : List.Perm (valsFlat (pointItems s)) ((insertionSeq s).map Prod.snd) := by
    rw [pointItems_eq_addPoints]
    have h := valsFlat_foldl_extendAssoc
      (fun pr : (ℚ × ℚ) × NItem => roundCoord pr.1) (fun pr => [pr.2])
      (insertionSeq s) []
    refine h.trans ?_
    rw [valsFlat_nil, List.nil_append, flatMap_singleton_map]
  calc valsFlat ((namedGroups (groupsOf s)).foldl
          (fun nets p => netsAdd nets p.1 p.2) [])
      ~ valsFlat ([] : List (String × List String))
          ++ (namedGroups (groupsOf s)).flatMap Prod.snd := step1
    _ = (valsFlat (groupsOf s)).filterMap pinRefOfItem := by
        rw [step2]; rfl
    _ ~ (valsFlat (pointItems s)).filterMap pinRefOfItem :=
        step3.filterMap pinRefOfItem
    _ ~ ((insertionSeq s).map Prod.snd).filterMap pinRefOfItem :=
        step4.filterMap pinRefOfItem
    _ = allPinRefs s := insertionSeq_pinRefs s

/-! ## Name merging (towards C5) -/

/-- Combine an existing dictionary entry with newly appended references. -/
def combineOpt {β : Type} [DecidableEq β] (o : Option (List β)) (l : List β) : Option (List β) :=
  match o with
  | some v => some (v ++ l)
  | none => if l = [] then none else some l

theorem combineOpt_nil {β : Type} [DecidableEq β] (o : Option (List β)) : combineOpt o [] = o := by
  cases o <;> simp [combineOpt]

theorem lookup_extendAssoc {α β : Type} [DecidableEq α]
    (l : List (α × List β)) (k k' : α) (its : List β) :
    lookupAssoc (extendAssoc l k its) k'
      = if k = k' then some ((lookupAssoc l k').getD [] ++ its)
        else lookupAssoc l k' := by
  induction l with
  | nil =>
      by_cases hk : k = k' <;> simp [extendAssoc, lookupAssoc, hk]
  | cons q t ih =>
      rw [extendAssoc]
      by_cases hq : q.1 = k
      · by_cases hk : k = k'
        · simp [lookupAssoc, hq, hk]
        · simp [lookupAssoc, hq, hk, hq ▸ hk]
      · by_cases hq' : q.1 = k'
        · have hk : ¬ k = k' := fun he => hq (he ▸ hq')
          have hk2 : ¬ k' = k := fun he => hk he.symm
          simp [lookupAssoc, hq, hq', hk, hk2]
        · simp [lookupAssoc, hq, hq', ih]

theorem lookup_netsFold (ngs : List (String × List String)) :
    ∀ (nets0 : List (String × List String)) (n : String),
      lookupAssoc (ngs.foldl (fun nets q => netsAdd nets q.1 q.2) nets0) n
        = combineOpt (lookupAssoc nets0 n)
            ((ngs.filter (fun q => q.1 = n)).flatMap Prod.snd) := by
  induction ngs with
  | nil => intro nets0 n; simp [combineOpt_nil]
  | cons q t ih =>
      intro nets0 n
      simp only [List.foldl_cons]
      rw [ih]
      by_cases hq : q.1 = n
      · rw [List.filter_cons_of_pos (by simp [hq]), List.flatMap_cons]
        unfold netsAdd
        split
        · rename_i hempty
          rw [hempty, List.nil_append]
        · rename_i hempty
          rw [lookup_extendAssoc, if_pos hq]
          cases ho : lookupAssoc nets0 n with
          | none =>
              have hne : ¬ (q.2 ++ (List.filter (fun q => decide (q.1 = n)) t).flatMap Prod.snd) = [] := by
                intro hcontra
                exact hempty (List.append_eq_nil.mp hcontra).1
              simp [combineOpt, hne]
          | some v => simp [combineOpt]
      · rw [List.filter_cons_of_neg (by simp [hq])]
        unfold netsAdd
        split
        · rfl
        · rw [lookup_extendAssoc, if_neg hq]

/-- C5: the nets dictionary maps each name to the concatenation, in
group-discovery order, of the pin-reference lists of all connected groups
resolving to that name — two spatially disjoint groups sharing a name are
merged into one entry — and has no entry for a name whose groups carry no
pins. -/
theorem C5_same_name_groups_concatenated (s : Schematic) (n : String) :
    lookupAssoc (buildNetConnectivity s) n
      = (let L := ((namedGroups (groupsOf s)).filter (fun q => q.1 = n)).flatMap Prod.snd
         if L = [] then none else some L) := by
  unfold buildNetConnectivity
  rw [lookup_netsFold]
  simp [combineOpt, lookupAssoc]

/-! ## Union-find structure lemmas (towards C1)

The wire-union pass only ever links keys of wire endpoints; a key that is
not a wire-endpoint key therefore remains its own root, and no other key's
root chain can reach it. -/

/-- The rounded keys of all wire endpoints. -/
def wireEndpointKeys (s : Schematic) : List Key :=
  s.wires.flatMap fun w => [roundCoord w.start, roundCoord w.stop]

theorem lookupAssoc_mem {α β : Type} [DecidableEq α]
    {l : List (α × β)} {k : α} {v : β} (h : lookupAssoc l k = some v) :
    (k, v) ∈ l := by
  induction l with
  | nil => simp [lookupAssoc] at h
  | cons q t ih =>
      rw [lookupAssoc] at h
      split at h
      · rename_i hq
        cases q
        simp_all
      · exact List.mem_cons_of_mem _ (ih h)

theorem mem_setAssoc {α β : Type} [DecidableEq α]
    {l : List (α × β)} {a : α} {b : β} {e : α × β}
    (h : e ∈ setAssoc l a b) : e ∈ l ∨ e = (a, b) := by
  induction l with
  | nil => simp [setAssoc] at h; simp [h]
  | cons q t ih =>
      rw [setAssoc] at h
      split at h
      · rcases List.mem_cons.mp h with h | h
        · right; exact h
        · left; exact List.mem_cons_of_mem _ h
      · rcases List.mem_cons.mp h with h | h
        · left; simp [h]
        · rcases ih h with h | h
          · left; exact List.mem_cons_of_mem _ h
          · right; exact h

theorem lookup_setAssoc_ne {α β : Type} [DecidableEq α]
    (l : List (α × β)) (a : α) (b : β) (k : α) (hk : a ≠ k) :
    lookupAssoc (setAssoc l a b) k = lookupAssoc l k := by
  induction l with
  | nil => simp [setAssoc, lookupAssoc, hk]
  | cons q t ih =>
      rw [setAssoc]
      split
      · rename_i hq
        rw [lookupAssoc, lookupAssoc, if_neg (hq ▸ hk), if_neg (hq ▸ hk)]
      · rw [lookupAssoc, lookupAssoc]
        split
        · rfl
        · exact ih

/-- Chasing parent pointers stays inside a set containing the start and all
entry targets. -/
theorem ufFindRoot_mem {S : Key → Prop} (par : Parent)
    (hpar : ∀ e ∈ par, S e.2) :
    ∀ fuel p, S p → S (ufFindRoot fuel par p) := by
  intro fuel
  induction fuel with
  | zero => intro p hp; exact hp
  | succ f ih =>
      intro p hp
      rw [ufFindRoot]
      cases hq : lookupAssoc par p with
      | none => simpa using hp
      | some q =>
          by_cases hqp : q = p
          · simpa [hqp] using hp
          · simpa [hqp] using ih q (hpar (p, q) (lookupAssoc_mem hq))

/-- If no non-self entry targets `k`, no chase starting away from `k`
reaches `k`. -/
theorem ufFindRoot_ne {par : Parent} {k : Key}
    (hpar : ∀ e ∈ par, e.1 ≠ e.2 → e.2 ≠ k) :
    ∀ fuel p, p ≠ k → ufFindRoot fuel par p ≠ k := by
  intro fuel
  induction fuel with
  | zero => intro p hp; exact hp
  | succ f ih =>
      intro p hp
      rw [ufFindRoot]
      cases hq : lookupAssoc par p with
      | none => simpa using hp
      | some q =>
          by_cases hqp : q = p
          · simpa [hqp] using hp
          · simpa [hqp] using
              ih q (hpar (p, q) (lookupAssoc_mem hq) (Ne.symm hqp))

/-- A key mapped to itself is its own root (with any nonzero fuel). -/
theorem ufFindRoot_self (par : Parent) (k : Key) (f : ℕ)
    (h : lookupAssoc par k = some k) :
    ufFindRoot (f + 1) par k = k := by
  rw [ufFindRoot, h]
  simp

theorem ufFind_fst_mem {S : Key → Prop} (par : Parent)
    (hpar : ∀ e ∈ par, S e.2) (p : Key) (hp : S p) :
    S (ufFind par p).1 := by
  rw [ufFind]
  cases h : lookupAssoc par p with
  | none => exact hp
  | some q => exact ufFindRoot_mem par hpar _ p hp

theorem ufFind_snd_mem (par : Parent) (p : Key) {e : Key × Key}
    (h : e ∈ (ufFind par p).2) : e ∈ par ∨ e = (p, p) := by
  rw [ufFind] at h
  cases hq : lookupAssoc par p with
  | none =>
      rw [hq] at h
      exact mem_setAssoc h
  | some q =>
      rw [hq] at h
      exact Or.inl h

/-- Every entry of the parent map built by the wire-union pass has both its
key and its target among the wire-endpoint keys. -/
theorem unionWires_entries (s : Schematic) :
    ∀ e ∈ unionWires s, e.1 ∈ wireEndpointKeys s ∧ e.2 ∈ wireEndpointKeys s := by
  unfold unionWires
  have main : ∀ (ws : List Wire) (par : Parent),
      (∀ w ∈ ws, w ∈ s.wires) →
      (∀ e ∈ par, e.1 ∈ wireEndpointKeys s ∧ e.2 ∈ wireEndpointKeys s) →
      ∀ e ∈ ws.foldl (fun par w => ufUnion par (roundCoord w.start) (roundCoord w.stop)) par,
        e.1 ∈ wireEndpointKeys s ∧ e.2 ∈ wireEndpointKeys s := by
    intro ws
    induction ws with
    | nil => intro par _ hpar e he; exact hpar e he
    | cons w t ih =>
        intro par hws hpar e he
        simp only [List.foldl_cons] at he
        refine ih _ (fun w' hw' => hws w' (List.mem_cons_of_mem _ hw')) ?_ e he
        intro e' he'
        have hwmem : w ∈ s.wires := hws w (List.mem_cons_self w t)
        have hsa : roundCoord w.start ∈ wireEndpointKeys s := by
          unfold wireEndpointKeys
          exact List.mem_flatMap.mpr ⟨w, hwmem, by simp⟩
        have hsb : roundCoord w.stop ∈ wireEndpointKeys s := by
          unfold wireEndpointKeys
          exact List.mem_flatMap.mpr ⟨w, hwmem, by simp⟩
        -- trace the entry through `ufUnion`
        simp only [ufUnion] at he'
        have hT : ∀ e ∈ par, e.2 ∈ wireEndpointKeys s := fun e he => (hpar e he).2
        have h1 : ∀ e ∈ (ufFind par (roundCoord w.start)).2,
            e.1 ∈ wireEndpointKeys s ∧ e.2 ∈ wireEndpointKeys s := by
          intro e he
          rcases ufFind_snd_mem par _ he with h | h
          · exact hpar e h
          · simp [h, hsa]
        have h1T : ∀ e ∈ (ufFind par (roundCoord w.start)).2,
            e.2 ∈ wireEndpointKeys s := fun e he => (h1 e he).2
        have h2 : ∀ e ∈ (ufFind (ufFind par (roundCoord w.start)).2 (roundCoord w.stop)).2,
            e.1 ∈ wireEndpointKeys s ∧ e.2 ∈ wireEndpointKeys s := by
          intro e he
          rcases ufFind_snd_mem _ _ he with h | h
          · exact h1 e h
          · simp [h, hsb]
        split at he'
        · exact h2 e' he'
        · rcases mem_setAssoc he' with h | h
          · exact h2 e' h
          · have hra : (ufFind par (roundCoord w.start)).1 ∈ wireEndpointKeys s :=
              ufFind_fst_mem par hT _ hsa
            have hrb : (ufFind (ufFind par (roundCoord w.start)).2 (roundCoord w.stop)).1
                ∈ wireEndpointKeys s :=
              ufFind_fst_mem _ h1T _ hsb
            simp [h, hra, hrb]
  exact main s.wires [] (fun _ h => h) (by simp)

/-- Every entry of the completed parent map is a self-loop or links two
wire-endpoint keys. -/
theorem parentAll_entries (s : Schematic) :
    ∀ e ∈ parentAll s,
      e.1 = e.2 ∨ (e.1 ∈ wireEndpointKeys s ∧ e.2 ∈ wireEndpointKeys s) := by
  unfold parentAll
  have main : ∀ (l : List (Key × List NItem)) (par : Parent),
      (∀ e ∈ par, e.1 = e.2 ∨ (e.1 ∈ wireEndpointKeys s ∧ e.2 ∈ wireEndpointKeys s)) →
      ∀ e ∈ l.foldl (fun par kv => (ufFind par kv.1).2) par,
        e.1 = e.2 ∨ (e.1 ∈ wireEndpointKeys s ∧ e.2 ∈ wireEndpointKeys s) := by
    intro l
    induction l with
    | nil => intro par hpar e he; exact hpar e he
    | cons kv t ih =>
        intro par hpar e he
        simp only [List.foldl_cons] at he
        refine ih _ ?_ e he
        intro e' he'
        rcases ufFind_snd_mem par kv.1 he' with h | h
        · exact hpar e' h
        · left; simp [h]
  intro e he
  exact main (pointItems s) (unionWires s)
    (fun e he => Or.inr (unionWires_entries s e he)) e he

theorem lookup_setAssoc_self {α β : Type} [DecidableEq α]
    (l : List (α × β)) (a : α) (b : β) :
    lookupAssoc (setAssoc l a b) a = some b := by
  induction l with
  | nil => simp [setAssoc, lookupAssoc]
  | cons q t ih =>
      rw [setAssoc]
      split
      · simp [lookupAssoc]
      · rename_i hq
        rw [lookupAssoc, if_neg hq]
        exact ih

/-- A general fold-invariant helper. -/
theorem foldl_preserve {α β : Type} (P : β → Prop) (f : β → α → β)
    (l : List α) (init : β) (h0 : P init) (hstep : ∀ b a, P b → P (f b a)) :
    P (l.foldl f init) := by
  induction l generalizing init with
  | nil => exact h0
  | cons a t ih => exact ih _ (hstep _ _ h0)

theorem lookup_unionWires_eq_none (s : Schematic) (k : Key)
    (hk : k ∉ wireEndpointKeys s) :
    lookupAssoc (unionWires s) k = none := by
  cases h : lookupAssoc (unionWires s) k with
  | none => rfl
  | some v =>
      exact absurd (unionWires_entries s (k, v) (lookupAssoc_mem h)).1 hk

theorem ufFind_preserves_self (par : Parent) (p k : Key)
    (h : lookupAssoc par k = some k) :
    lookupAssoc (ufFind par p).2 k = some k := by
  rw [ufFind]
  cases hq : lookupAssoc par p with
  | some q => simpa using h
  | none =>
      by_cases hpk : p = k
      · subst hpk
        rw [hq] at h
        cases h
      · simpa [lookup_setAssoc_ne par p p k hpk] using h

theorem ufFind_preserves_none_or_self (par : Parent) (p k : Key)
    (h : lookupAssoc par k = none ∨ lookupAssoc par k = some k) :
    lookupAssoc (ufFind par p).2 k = none ∨
      lookupAssoc (ufFind par p).2 k = some k := by
  rw [ufFind]
  cases hq : lookupAssoc par p with
  | some q => simpa using h
  | none =>
      by_cases hpk : p = k
      · subst hpk
        right
        simpa using lookup_setAssoc_self par p p
      · simpa [lookup_setAssoc_ne par p p k hpk] using h

/-- A key with a bucket in `point_items` that is not a wire-endpoint key is
registered as its own parent by the completed map. -/
theorem lookup_parentAll_self (s : Schematic) (k : Key)
    (hk : k ∉ wireEndpointKeys s)
    (hmem : ∃ v, (k, v) ∈ pointItems s) :
    lookupAssoc (parentAll s) k = some k := by
  unfold parentAll
  obtain ⟨v, hv⟩ := hmem
  obtain ⟨l1, l2, hsplit⟩ := List.append_of_mem hv
  rw [hsplit, List.foldl_append, List.foldl_cons]
  have h1 : lookupAssoc (l1.foldl (fun par kv => (ufFind par kv.1).2) (unionWires s)) k = none ∨
      lookupAssoc (l1.foldl (fun par kv => (ufFind par kv.1).2) (unionWires s)) k = some k :=
    foldl_preserve
      (fun par => lookupAssoc par k = none ∨ lookupAssoc par k = some k)
      (fun par kv => (ufFind par kv.1).2) l1 (unionWires s)
      (Or.inl (lookup_unionWires_eq_none s k hk))
      (fun par kv h => ufFind_preserves_none_or_self par kv.1 k h)
  have h2 : lookupAssoc
      ((ufFind (l1.foldl (fun par kv => (ufFind par kv.1).2) (unionWires s)) (k, v).1).2) k
        = some k := by
    rcases h1 with h1 | h1
    · rw [ufFind, h1]
      simpa using lookup_setAssoc_self _ k k
    · exact ufFind_preserves_self _ _ k h1
  exact foldl_preserve (fun par => lookupAssoc par k = some k)
    (fun par kv => (ufFind par kv.1).2) l2 _ h2
    (fun par kv h => ufFind_preserves_self par kv.1 k h)

/-- Such a key is its own root... -/
theorem rootOf_self_of_lookup (par : Parent) (k : Key)
    (h : lookupAssoc par k = some k) : rootOf par k = k :=
  ufFindRoot_self par k par.length h

/-- ...and no other key's root chain reaches it. -/
theorem rootOf_ne_of_not_wire (s : Schematic) (k : Key)
    (hk : k ∉ wireEndpointKeys s) :
    ∀ k', k' ≠ k → rootOf (parentAll s) k' ≠ k := by
  intro k' hne
  refine ufFindRoot_ne ?_ _ k' hne
  intro e he hne2
  rcases parentAll_entries s e he with h | h
  · exact absurd h hne2
  · intro hek
    exact hk (hek ▸ h.2)

/-! ## Bucket characterization (towards C1) -/

theorem keys_extendAssoc {α β : Type} [DecidableEq α]
    (l : List (α × List β)) (k : α) (its : List β) :
    (extendAssoc l k its).map Prod.fst
      = if k ∈ l.map Prod.fst then l.map Prod.fst else l.map Prod.fst ++ [k] := by
  induction l with
  | nil => simp [extendAssoc]
  | cons q t ih =>
      rw [extendAssoc]
      by_cases hq : q.1 = k
      · simp [hq]
      · have : ¬ k = q.1 := fun he => hq he.symm
        simp only [List.map_cons, List.mem_cons, this, false_or]
        rw [if_neg hq]
        simp only [List.map_cons, ih]
        split <;> simp

theorem nodup_keys_extendAssoc {α β : Type} [DecidableEq α]
    (l : List (α × List β)) (k : α) (its : List β)
    (h : (l.map Prod.fst).Nodup) : ((extendAssoc l k its).map Prod.fst).Nodup := by
  rw [keys_extendAssoc]
  split
  · exact h
  · rename_i hk
    simp [List.nodup_append, h, hk]

theorem pointItems_keys_nodup (s : Schematic) :
    ((pointItems s).map Prod.fst).Nodup := by
  rw [pointItems_eq_addPoints]
  exact foldl_preserve (fun l => (l.map Prod.fst).Nodup)
    (fun pi pr => addPoint pi pr.1 pr.2) (insertionSeq s) [] (by simp)
    (fun pi pr h => nodup_keys_extendAssoc pi (roundCoord pr.1) [pr.2] h)

theorem filter_key_eq_nil {α β : Type} [DecidableEq α]
    (l : List (α × β)) (k : α) (hk : k ∉ l.map Prod.fst) :
    l.filter (fun kv => kv.1 = k) = [] := by
  induction l with
  | nil => rfl
  | cons q t ih =>
      simp only [List.map_cons, List.mem_cons] at hk
      push_neg at hk
      rw [List.filter_cons_of_neg (by simpa using fun he => hk.1 he.symm)]
      exact ih hk.2

theorem filter_key_singleton {α β : Type} [DecidableEq α]
    (l : List (α × β)) (k : α) (v : β)
    (hnd : (l.map Prod.fst).Nodup) (hv : lookupAssoc l k = some v) :
    l.filter (fun kv => kv.1 = k) = [(k, v)] := by
  induction l with
  | nil => simp [lookupAssoc] at hv
  | cons q t ih =>
      rw [lookupAssoc] at hv
      simp only [List.map_cons, List.nodup_cons] at hnd
      split at hv
      · rename_i hq
        cases hv
        rw [List.filter_cons_of_pos (by simpa using hq)]
        have hknot : k ∉ t.map Prod.fst := hq ▸ hnd.1
        rw [filter_key_eq_nil t k hknot]
        cases q
        simp_all
      · rename_i hq
        rw [List.filter_cons_of_neg (by simpa using hq)]
        exact ih hnd.2 hv

open List in
/-- Folding `extendAssoc` over a sequence: the looked-up bucket is the
concatenation of the contributions filed under that key (for nonempty
contributions). -/
theorem lookup_foldl_extendAssoc {α β γ : Type} [DecidableEq α] [DecidableEq β]
    (f : γ → α) (g : γ → List β) (l : List γ) (hg : ∀ c ∈ l, g c ≠ []) :
    ∀ init k, lookupAssoc (l.foldl (fun acc c => extendAssoc acc (f c) (g c)) init) k
      = combineOpt (lookupAssoc init k) ((l.filter (fun c => f c = k)).flatMap g) := by
  induction l with
  | nil => intro init k; simp [combineOpt_nil]
  | cons c t ih =>
      intro init k
      simp only [List.foldl_cons]
      rw [ih (fun c hc => hg c (List.mem_cons_of_mem _ hc))]
      by_cases hc : f c = k
      · rw [List.filter_cons_of_pos (by simpa using hc), List.flatMap_cons]
        rw [lookup_extendAssoc, if_pos hc]
        cases ho : lookupAssoc init k with
        | none =>
            have hne : ¬ (g c ++ (t.filter (fun c => f c = k)).flatMap g) = [] := by
              intro hcontra
              exact hg c (List.mem_cons_self c t) (List.append_eq_nil.mp hcontra).1
            simp [combineOpt, hne]
        | some v => simp [combineOpt]
      · rw [List.filter_cons_of_neg (by simpa using hc)]
        rw [lookup_extendAssoc, if_neg hc]

/-- The pin items of placed symbols whose rounded position is `k`, in
insertion order. -/
def pinItemsAt (s : Schematic) (k : Key) : List NItem :=
  s.symbols.flatMap fun sy =>
    (sy.pins.filter (fun q => roundCoord q.position = k)).map
      fun q => NItem.pinItem sy.reference q.name q.number q.electricalType sy.libId

/-- Under the no-coincidence premises, the insertion-sequence entries filed
under key `k` are exactly the pin items of the symbols whose pins round
to `k`. -/
theorem insertionSeq_filter_at (s : Schematic) (k : Key)
    (hw : k ∉ wireEndpointKeys s)
    (hl : ∀ lb ∈ s.labels, roundCoord lb.position ≠ k)
    (hpow : ∀ ps ∈ s.powerSymbols, ∀ q ∈ ps.pins, roundCoord q.position ≠ k)
    (hj : ∀ j ∈ s.junctions, roundCoord j ≠ k) :
    ((insertionSeq s).filter (fun pr => roundCoord pr.1 = k)).map Prod.snd
      = pinItemsAt s k := by
  unfold insertionSeq pinItemsAt
  simp only [List.filter_append, List.map_append]
  have h1 : (s.wires.flatMap fun w =>
        [(w.start, NItem.wirePoint), (w.stop, NItem.wirePoint)]).filter
          (fun pr => roundCoord pr.1 = k) = [] := by
    rw [List.filter_eq_nil_iff]
    intro pr hpr
    rcases List.mem_flatMap.mp hpr with ⟨w, hwmem, hin⟩
    simp only [List.mem_cons, List.mem_singleton] at hin
    simp only [decide_eq_true_eq]
    rcases hin with hin | hin | hin
    · intro hk
      exact hw (List.mem_flatMap.mpr ⟨w, hwmem, by simp [hin ▸ hk]⟩)
    · intro hk
      exact hw (List.mem_flatMap.mpr ⟨w, hwmem, by simp [hin ▸ hk]⟩)
    · cases hin
  have h3 : (s.powerSymbols.flatMap fun sym => sym.pins.map fun p =>
        (p.position, NItem.powerItem sym.value sym.reference)).filter
          (fun pr => roundCoord pr.1 = k) = [] := by
    rw [List.filter_eq_nil_iff]
    intro pr hpr
    rcases List.mem_flatMap.mp hpr with ⟨sym, hsmem, hin⟩
    rcases List.mem_map.mp hin with ⟨q, hq, hq'⟩
    simpa [← hq'] using hpow sym hsmem q hq
  have h4 : (s.labels.map fun lb =>
        (lb.position, NItem.labelItem lb.name lb.type)).filter
          (fun pr => roundCoord pr.1 = k) = [] := by
    rw [List.filter_eq_nil_iff]
    intro pr hpr
    rcases List.mem_map.mp hpr with ⟨lb, hlb, hlb'⟩
    simpa [← hlb'] using hl lb hlb
  have h5 : (s.junctions.map fun j => (j, NItem.junctionItem)).filter
          (fun pr => roundCoord pr.1 = k) = [] := by
    rw [List.filter_eq_nil_iff]
    intro pr hpr
    rcases List.mem_map.mp hpr with ⟨j, hjm, hj'⟩
    simpa [← hj'] using hj j hjm
  have h2 : ((s.symbols.flatMap fun sym => sym.pins.map fun p =>
          (p.position,
            NItem.pinItem sym.reference p.name p.number p.electricalType sym.libId)).filter
        (fun pr => roundCoord pr.1 = k)).map Prod.snd
      = s.symbols.flatMap fun sy =>
          (sy.pins.filter (fun q => roundCoord q.position = k)).map
            fun q => NItem.pinItem sy.reference q.name q.number q.electricalType sy.libId := by
    induction s.symbols with
    | nil => rfl
    | cons sym t ih =>
        simp only [List.flatMap_cons, List.filter_append, List.map_append, ih]
        congr 1
        rw [List.filter_map]
        rw [List.map_map]
        rfl
  rw [h1, h3, h4, h5, h2]
  simp

/-- The bucket stored under key `k` in `point_items`. -/
theorem lookup_pointItems (s : Schematic) (k : Key) :
    lookupAssoc (pointItems s) k
      = combineOpt none
          (((insertionSeq s).filter (fun pr => roundCoord pr.1 = k)).flatMap
            (fun pr => [pr.2])) := by
  rw [pointItems_eq_addPoints]
  have h := lookup_foldl_extendAssoc
    (fun pr : (ℚ × ℚ) × NItem => roundCoord pr.1) (fun pr => [pr.2])
    (insertionSeq s) (by simp) [] k
  exact h

theorem pointItems_snd_ne_nil (s : Schematic) :
    ∀ kv ∈ pointItems s, kv.2 ≠ [] := by
  rw [pointItems_eq_addPoints]
  unfold addPoints
  apply foldl_preserve (fun l => ∀ kv ∈ l, kv.2 ≠ [])
    (fun pi pr => addPoint pi pr.1 pr.2) (insertionSeq s) []
  · simp
  · intro pi pr h
    exact extendAssoc_snd_ne_nil pi (roundCoord pr.1) [pr.2] h (by simp)

/-- Under the no-coincidence premises, the key `k` forms its own group in
`groups`, holding exactly the pin items that round to `k`. -/
theorem lookup_groupsOf_at (s : Schematic) (k : Key)
    (hw : k ∉ wireEndpointKeys s)
    (hl : ∀ lb ∈ s.labels, roundCoord lb.position ≠ k)
    (hpow : ∀ ps ∈ s.powerSymbols, ∀ q ∈ ps.pins, roundCoord q.position ≠ k)
    (hj : ∀ j ∈ s.junctions, roundCoord j ≠ k)
    (hne : pinItemsAt s k ≠ []) :
    lookupAssoc (groupsOf s) k = some (pinItemsAt s k) := by
  have hfm : ((insertionSeq s).filter (fun pr => roundCoord pr.1 = k)).flatMap
      (fun pr => [pr.2]) = pinItemsAt s k := by
    rw [flatMap_singleton_map, insertionSeq_filter_at s k hw hl hpow hj]
  have hbucket : lookupAssoc (pointItems s) k = some (pinItemsAt s k) := by
    rw [lookup_pointItems, hfm]
    simp [combineOpt, hne]
  have hmem : (k, pinItemsAt s k) ∈ pointItems s := lookupAssoc_mem hbucket
  have hself : lookupAssoc (parentAll s) k = some k :=
    lookup_parentAll_self s k hw ⟨pinItemsAt s k, hmem⟩
  have hgen : lookupAssoc (groupsOf s) k
      = combineOpt (lookupAssoc ([] : List (Key × List NItem)) k)
          (((pointItems s).filter
            (fun kv => rootOf (parentAll s) kv.1 = k)).flatMap Prod.snd) := by
    unfold groupsOf
    exact lookup_foldl_extendAssoc _ _ _ (pointItems_snd_ne_nil s) [] k
  rw [hgen]
  have hfilter : (pointItems s).filter
        (fun kv => rootOf (parentAll s) kv.1 = k)
      = (pointItems s).filter (fun kv => kv.1 = k) := by
    apply List.filter_congr
    intro kv hkv
    by_cases hkk : kv.1 = k
    · simp [hkk, rootOf_self_of_lookup _ _ hself]
    · simp [hkk, rootOf_ne_of_not_wire s k hw kv.1 hkk]
  rw [hfilter,
    filter_key_singleton (pointItems s) k (pinItemsAt s k)
      (pointItems_keys_nodup s) hbucket]
  simp [combineOpt, lookupAssoc, hne]

/-- A group with no name-bearing item is reported under a synthesized
`_unnamed_net_{j}` name, keeping its pin references. -/
theorem namedGroupsAux_unnamed_mem (gs : List (Key × List NItem)) :
    ∀ (c : ℕ) (kv : Key × List NItem), kv ∈ gs →
      kv.2.findSome? itemNetName = none →
      ∃ j : ℕ, ("_unnamed_net_" ++ toString j, kv.2.filterMap pinRefOfItem)
        ∈ namedGroupsAux gs c := by
  induction gs with
  | nil => intro c kv hkv; cases hkv
  | cons hd t ih =>
      intro c kv hkv hnone
      rcases List.mem_cons.mp hkv with hkv | hkv
      · subst hkv
        rw [namedGroupsAux, hnone]
        exact ⟨c + 1, List.mem_cons_self _ _⟩
      · rw [namedGroupsAux]
        cases hd.2.findSome? itemNetName with
        | none =>
            obtain ⟨j, hj⟩ := ih (c + 1) kv hkv hnone
            exact ⟨j, List.mem_cons_of_mem _ hj⟩
        | some n =>
            obtain ⟨j, hj⟩ := ih c kv hkv hnone
            exact ⟨j, List.mem_cons_of_mem _ hj⟩

theorem mem_extendAssoc_of_mem {α β : Type} [DecidableEq α]
    {l : List (α × List β)} {n : α} {r : List β}
    (h : (n, r) ∈ l) (m : α) (its : List β) :
    ∃ r', (n, r') ∈ extendAssoc l m its ∧ ∀ x ∈ r, x ∈ r' := by
  induction l with
  | nil => cases h
  | cons q t ih =>
      rw [extendAssoc]
      rcases List.mem_cons.mp h with h | h
      · split
        · rename_i hq
          subst h
          exact ⟨r ++ its, List.mem_cons_self _ _, fun x hx => List.mem_append_left _ hx⟩
        · subst h
          exact ⟨r, List.mem_cons_self _ _, fun x hx => hx⟩
      · split
        · exact ⟨r, List.mem_cons_of_mem _ h, fun x hx => hx⟩
        · obtain ⟨r', hr', hsub⟩ := ih h
          exact ⟨r', List.mem_cons_of_mem _ hr', hsub⟩

theorem extendAssoc_self_mem {α β : Type} [DecidableEq α]
    (l : List (α × List β)) (m : α) (its : List β) :
    ∃ r', (m, r') ∈ extendAssoc l m its ∧ ∀ x ∈ its, x ∈ r' := by
  induction l with
  | nil => exact ⟨its, List.mem_cons_self _ _, fun x hx => hx⟩
  | cons q t ih =>
      rw [extendAssoc]
      split
      · rename_i hq
        refine ⟨q.2 ++ its, ?_, fun x hx => List.mem_append_right _ hx⟩
        rw [← hq]
        exact List.mem_cons_self _ _
      · obtain ⟨r', hr', hsub⟩ := ih
        exact ⟨r', List.mem_cons_of_mem _ hr', hsub⟩

theorem netsFold_persist (ngs : List (String × List String)) :
    ∀ (nets0 : List (String × List String)) (n : String) (r : List String)
      (x : String), (n, r) ∈ nets0 → x ∈ r →
      ∃ r', (n, r') ∈ ngs.foldl (fun nets q => netsAdd nets q.1 q.2) nets0 ∧
        x ∈ r' := by
  induction ngs with
  | nil => intro nets0 n r x h hx; exact ⟨r, h, hx⟩
  | cons q t ih =>
      intro nets0 n r x h hx
      simp only [List.foldl_cons]
      unfold netsAdd
      split
      · exact ih nets0 n r x h hx
      · obtain ⟨r', hr', hsub⟩ := mem_extendAssoc_of_mem h q.1 q.2
        exact ih _ n r' x hr' (hsub x hx)

theorem netsFold_mem (ngs : List (String × List String)) :
    ∀ (nets0 : List (String × List String)) (n : String) (refs : List String)
      (x : String), (n, refs) ∈ ngs → x ∈ refs →
      ∃ r', (n, r') ∈ ngs.foldl (fun nets q => netsAdd nets q.1 q.2) nets0 ∧
        x ∈ r' := by
  induction ngs with
  | nil => intro _ _ _ _ h; cases h
  | cons q t ih =>
      intro nets0 n refs x h hx
      simp only [List.foldl_cons]
      rcases List.mem_cons.mp h with h | h
      · subst h
        unfold netsAdd
        rw [if_neg (by rintro rfl; cases hx)]
        obtain ⟨r', hr', hsub⟩ := extendAssoc_self_mem nets0 n refs
        exact netsFold_persist t _ n r' x hr' (hsub x hx)
      · exact ih _ n refs x h hx

/-- C1 (amended): a symbol-instance pin whose rounded absolute position
coincides with no wire endpoint, label position, power-symbol pin position,
or junction point is NOT absent from the nets mapping: it appears in the
member list of a net named `_unnamed_net_{j}` — the singleton coordinate
group formed by its own position (see `C1_counterexample` for the concrete
refutation of the claim as stated). -/
theorem C1_unconnected_pin_in_unnamed_net (s : Schematic) (sym : SymbolInst)
    (p : PinInst) (hsym : sym ∈ s.symbols) (hp : p ∈ sym.pins)
    (hw : roundCoord p.position ∉ wireEndpointKeys s)
    (hl : ∀ lb ∈ s.labels, roundCoord lb.position ≠ roundCoord p.position)
    (hpow : ∀ ps ∈ s.powerSymbols, ∀ q ∈ ps.pins,
      roundCoord q.position ≠ roundCoord p.position)
    (hj : ∀ j ∈ s.junctions, roundCoord j ≠ roundCoord p.position) :
    ∃ (j : ℕ) (refs : List String),
      ("_unnamed_net_" ++ toString j, refs) ∈ buildNetConnectivity s ∧
      pinRefString sym.reference p ∈ refs := by
  have hi0 : NItem.pinItem sym.reference p.name p.number p.electricalType sym.libId
      ∈ pinItemsAt s (roundCoord p.position) := by
    unfold pinItemsAt
    refine List.mem_flatMap.mpr ⟨sym, hsym, ?_⟩
    exact List.mem_map.mpr ⟨p, List.mem_filter.mpr ⟨hp, by simp⟩, rfl⟩
  have hne : pinItemsAt s (roundCoord p.position) ≠ [] := by
    intro h
    rw [h] at hi0
    cases hi0
  have hgrp := lookup_groupsOf_at s (roundCoord p.position) hw hl hpow hj hne
  have hmem : (roundCoord p.position, pinItemsAt s (roundCoord p.position))
      ∈ groupsOf s := lookupAssoc_mem hgrp
  have hnonames : (pinItemsAt s (roundCoord p.position)).findSome? itemNetName
      = none := by
    rw [List.findSome?_eq_none_iff]
    intro i hi
    unfold pinItemsAt at hi
    rcases List.mem_flatMap.mp hi with ⟨sy, _, hin⟩
    rcases List.mem_map.mp hin with ⟨q, _, hq⟩
    rw [← hq]
    rfl
  obtain ⟨j, hj2⟩ := namedGroupsAux_unnamed_mem (groupsOf s) 0
    (roundCoord p.position, pinItemsAt s (roundCoord p.position)) hmem hnonames
  have hrefmem : pinRefString sym.reference p
      ∈ (pinItemsAt s (roundCoord p.position)).filterMap pinRefOfItem :=
    List.mem_filterMap.mpr ⟨_, hi0, rfl⟩
  obtain ⟨refs, hrefs, hx⟩ := netsFold_mem (namedGroups (groupsOf s)) []
    ("_unnamed_net_" ++ toString j)
    ((pinItemsAt s (roundCoord p.position)).filterMap pinRefOfItem)
    (pinRefString sym.reference p) hj2 hrefmem
  exact ⟨j, refs, hrefs, hx⟩

/-- The single placed symbol of `schLonePinS`. -/
def lonePinSym : SymbolInst :=
  { libId := "Device:R", reference := "R1", value := "R", footprint := "",
    unit := 1, uuid := "", placement := (0, 0, 0), mirrorX := false,
    mirrorY := false, properties := [], isPower := false,
    pins := [⟨"", "1", "passive", (0, 0)⟩] }

/-- An assembled schematic holding one symbol with one pin and nothing
else. -/
def schLonePinS : Schematic :=
  { version := Tok.atom "", wires := [], labels := [], junctions := [],
    noConnects := [], powerSymbols := [], libSymbols := [], nets := [],
    symbols := [lonePinSym] }

/-- Witness for C1 at a concrete schematic whose only pin touches
nothing. -/
theorem C1_witness :
    ∃ (j : ℕ) (refs : List String),
      ("_unnamed_net_" ++ toString j, refs) ∈ buildNetConnectivity schLonePinS ∧
      pinRefString lonePinSym.reference ⟨"", "1", "passive", (0, 0)⟩ ∈ refs :=
  C1_unconnected_pin_in_unnamed_net schLonePinS lonePinSym
    ⟨"", "1", "passive", (0, 0)⟩
    (by with_unfolding_all decide) (by with_unfolding_all decide)
    (by with_unfolding_all decide) (by with_unfolding_all decide)
    (by with_unfolding_all decide) (by with_unfolding_all decide)

/-! ## Round-trip serialization (towards C9) -/

mutual

/-- Modelled from the spec: re-serialize a token tree by joining atoms with
spaces and wrapping lists in parentheses (the spec's round-trip property
names exactly this serializer; the source has none). -/
def specSerializeTok : Tok → List Char
  | .atom s => s.data
  | .list ts => '(' :: (specSerializeList ts ++ [')'])

/-- Join serialized tokens with single spaces. -/
def specSerializeList : List Tok → List Char
  | [] => []
  | [t] => specSerializeTok t
  | t :: ts => specSerializeTok t ++ ' ' :: specSerializeList ts

end

mutual

/-- A token tree whose atoms are nonempty and free of the delimiter
characters (parentheses, whitespace, quote). -/
def goodTok : Tok → Bool
  | .atom s => !s.data.isEmpty && s.data.all (fun c => !isAtomStop c)
  | .list ts => goodList ts

/-- All members are good. -/
def goodList : List Tok → Bool
  | [] => true
  | t :: ts => goodTok t && goodList ts

end

/-- The continuation after a serialized token inside a list: empty input or
a stop character (space or closing parenthesis in serialized output). -/
def stopStart (rest : List Char) : Prop :=
  rest = [] ∨ ∃ c cs, rest = c :: cs ∧ isAtomStop c = true

theorem scanAtom_exact (a : List Char) (ha : ∀ c ∈ a, isAtomStop c = false) :
    ∀ rest, stopStart rest → scanAtom (a ++ rest) = (a, rest) := by
  induction a with
  | nil =>
      intro rest hrest
      rcases hrest with h | ⟨c, cs, hr, hc⟩
      · simp [h, scanAtom]
      · simp [hr, scanAtom, hc]
  | cons c t ih =>
      intro rest hrest
      have hc : isAtomStop c = false := ha c (List.mem_cons_self c t)
      rw [List.cons_append, scanAtom, if_neg (by simp [hc])]
      rw [ih (fun c hc => ha c (List.mem_cons_of_mem _ hc)) rest hrest]

theorem atomStop_false_facts {c : Char} (h : isAtomStop c = false) :
    (c = '(' → False) ∧ (c = ')' → False) ∧ (c = '"' → False) ∧
      isSpaceChar c = false := by
  unfold isAtomStop at h
  simp only [Bool.or_eq_false_iff, decide_eq_false_iff_not] at h
  exact ⟨fun he => h.1.1.1 he, fun he => h.1.1.2 he, fun he => h.1.2 he, h.2⟩

mutual

/-- Scanning a serialized good token appends that token to the innermost
open list. -/
theorem tokenizeAux_serializeTok : ∀ (t : Tok), goodTok t = true →
    ∀ (rest : List Char) (top : List Tok) (stk : List (List Tok)),
      stopStart rest →
      tokenizeAux (specSerializeTok t ++ rest) (top :: stk)
        = tokenizeAux rest ((top ++ [t]) :: stk)
  | .atom s, hg, rest, top, stk, hrest => by
      rw [specSerializeTok]
      simp only [goodTok, Bool.and_eq_true, Bool.not_eq_true',
        List.all_eq_true] at hg
      obtain ⟨hne2, hall⟩ := hg
      cases hs : s.data with
      | nil => rw [hs] at hne2; simp [List.isEmpty] at hne2
      | cons c cs =>
          have hc : isAtomStop c = false := by
            have := hall c (by rw [hs]; exact List.mem_cons_self c cs)
            simpa using this
          obtain ⟨h1, h2, h3, hsp⟩ := atomStop_false_facts hc
          rw [List.cons_append]
          rw [show tokenizeAux (c :: (cs ++ rest)) (top :: stk)
              = (if isSpaceChar c then tokenizeAux (cs ++ rest) (top :: stk)
                 else
                   tokenizeAux (scanAtom (cs ++ rest)).2
                     (pushTop (top :: stk)
                       (Tok.atom (String.mk (c :: (scanAtom (cs ++ rest)).1)))))
            from by
              simp only [tokenizeAux, h1, h2, h3]]
          rw [if_neg (by simp [hsp])]
          rw [scanAtom_exact cs
            (fun c' hc' => by
              simpa using hall c' (by rw [hs]; exact List.mem_cons_of_mem _ hc'))
            rest hrest]
          have hstr : String.mk (c :: cs) = s := by
            cases s
            simp_all
          rw [show pushTop (top :: stk) (Tok.atom (String.mk (c :: cs)))
              = (top ++ [Tok.atom (String.mk (c :: cs))]) :: stk from rfl, hstr]
  | .list ts, hg, rest, top, stk, hrest => by
      rw [specSerializeTok]
      simp only [goodTok] at hg
      rw [List.cons_append, List.append_assoc]
      rw [show tokenizeAux ('(' :: (specSerializeList ts ++ ([')'] ++ rest))) (top :: stk)
          = tokenizeAux (specSerializeList ts ++ (')' :: rest)) ([] :: top :: stk)
        from by simp [tokenizeAux]]
      rw [tokenizeAux_serializeList ts hg (')' :: rest) [] (top :: stk)
        (Or.inr ⟨')', rest, rfl, by decide⟩)]
      rw [show tokenizeAux (')' :: rest) (([] ++ ts) :: top :: stk)
          = tokenizeAux rest ((top ++ [Tok.list ([] ++ ts)]) :: stk)
        from by simp [tokenizeAux]]
      simp

/-- Scanning a serialized good token list appends those tokens, in order,
to the innermost open list. -/
theorem tokenizeAux_serializeList : ∀ (ts : List Tok), goodList ts = true →
    ∀ (rest : List Char) (acc : List Tok) (stk : List (List Tok)),
      stopStart rest →
      tokenizeAux (specSerializeList ts ++ rest) (acc :: stk)
        = tokenizeAux rest ((acc ++ ts) :: stk)
  | [], _, rest, acc, stk, _ => by
      rw [specSerializeList]
      simp
  | [t], hg, rest, acc, stk, hrest => by
      rw [specSerializeList]
      simp only [goodList, Bool.and_eq_true] at hg
      exact tokenizeAux_serializeTok t hg.1 rest acc stk hrest
  | t :: t' :: ts, hg, rest, acc, stk, hrest => by
      rw [specSerializeList]
      simp only [goodList, Bool.and_eq_true] at hg
      rw [List.append_assoc, List.cons_append]
      rw [tokenizeAux_serializeTok t hg.1 (' ' :: (specSerializeList (t' :: ts) ++ rest))
        acc stk (Or.inr ⟨' ', _, rfl, by decide⟩)]
      rw [show tokenizeAux (' ' :: (specSerializeList (t' :: ts) ++ rest))
            ((acc ++ [t]) :: stk)
          = tokenizeAux (specSerializeList (t' :: ts) ++ rest) ((acc ++ [t]) :: stk)
        from by simp [tokenizeAux, isSpaceChar]]
      rw [tokenizeAux_serializeList (t' :: ts)
        (by simp [goodList, hg.2.1, hg.2.2]) rest (acc ++ [t]) stk hrest]
      simp
      simp

end

/-- C9 (amended): for a token tree all of whose atoms are nonempty and free
of parentheses, whitespace and quote characters, serializing (atoms joined
by spaces, lists wrapped in parentheses) and re-tokenizing returns the same
tree.  The claim as stated fails on quoted atoms containing such
characters, see `C9_counterexample`. -/
theorem C9_roundtrip_good_trees (t : Tok) (hg : goodTok t = true) :
    tokenizeSexpr (String.mk (specSerializeTok t)) = t := by
  have hb := tokenizeAux_serializeTok t hg [] [] [] (Or.inl rfl)
  rw [List.append_nil] at hb
  rw [tokenizeSexpr_eq]
  show (match closeAll (tokenizeAux (specSerializeTok t) [[]]) with
        | [t] => t
        | ts => Tok.list ts) = t
  rw [hb]
  simp [tokenizeAux, closeAll, closeAllAux]

/-- Witness for C9 at a concrete good tree. -/
theorem C9_witness :
    goodTok (Tok.list [Tok.atom "a", Tok.list [Tok.atom "b"]]) = true ∧
    tokenizeSexpr (String.mk
        (specSerializeTok (Tok.list [Tok.atom "a", Tok.list [Tok.atom "b"]])))
      = Tok.list [Tok.atom "a", Tok.list [Tok.atom "b"]] :=
  ⟨by decide, C9_roundtrip_good_trees _ (by decide)⟩

/-- Counterexample to C9 as stated: the well-formed input `("a b")`
tokenizes to a tree with the single atom `a b`; serializing that tree and
re-tokenizing splits the atom in two, so the round trip fails. -/
theorem C9_counterexample :
    tokenizeSexpr "(\"a b\")" = Tok.list [Tok.atom "a b"] ∧
    tokenizeSexpr (String.mk (specSerializeTok (tokenizeSexpr "(\"a b\")")))
      = Tok.list [Tok.atom "a", Tok.atom "b"] ∧
    tokenizeSexpr (String.mk (specSerializeTok (tokenizeSexpr "(\"a b\")")))
      ≠ tokenizeSexpr "(\"a b\")" := by
  refine ⟨?_, ?_, ?_⟩ <;> decide

end KicadParser
